import Mathlib

/-!
Verification of the core webbundle codec (`webbundle/src/encoder.rs`,
`webbundle/src/decoder.rs`, `webbundle/src/bundle.rs`, `webbundle/src/builder.rs`).

The development is a shallow embedding over byte lists (`List Nat`, each
element a value of a Rust `u8`):

* the CBOR primitives used by the `cbor_event` crate (definite-length
  headers with minimal integer encoding on the serializer side; a reader
  that accepts any definite-length header),
* the encoder (`Encoder::encode`, `encode_sections`,
  `encode_response_section`, `encode_index_section`,
  `encode_section_lengths`, `encode_headers`),
* the decoder (`Decoder::decode` and its helpers, with cursor positions
  mirrored exactly, including the absolute-offset computation of
  `read_section_offsets_cbor` and the unchecked slice in
  `new_decoder_from_range`, whose out-of-range Rust panic is modelled by
  the distinguished outcome `DErr.panicked`).

Rust `String` values are embedded as their UTF-8 byte lists; the decoder
side re-checks UTF-8 validity exactly where `String::from_utf8` does.
`http::Uri` parsing of the primary URL is modelled as the identity on its
canonical textual form (the `http` crate is an external collaborator).
Indefinite-length CBOR items are modelled as read failures; no claim below
depends on inputs containing them.
-/

/-- Byte strings are lists of byte values. -/
abbrev Bytes := List Nat

/-- Big-endian bytes of a value, fixed width (`u64::to_be_bytes` for width 8). -/
def beBytes : Nat → Nat → Bytes
  | 0, _ => []
  | w + 1, n => beBytes w (n / 256) ++ [n % 256]

/-- Big-endian value of a byte list. -/
def beVal (l : Bytes) : Nat := l.foldl (fun acc b => acc * 256 + b) 0

/-- CBOR item header as written by `cbor_event`: major type plus minimal
definite-length additional information. -/
def cborHeader (major n : Nat) : Bytes :=
  if n < 24 then [major * 32 + n]
  else if n < 2 ^ 8 then (major * 32 + 24) :: beBytes 1 n
  else if n < 2 ^ 16 then (major * 32 + 25) :: beBytes 2 n
  else if n < 2 ^ 32 then (major * 32 + 26) :: beBytes 4 n
  else (major * 32 + 27) :: beBytes 8 n

/-- Strict lexicographic byte order, the `Ord` instance of Rust `Vec<u8>`
used by `BTreeMap` in the encoder. -/
def lexLt : Bytes → Bytes → Bool
  | [], [] => false
  | [], _ :: _ => true
  | _ :: _, [] => false
  | a :: as, b :: bs => a < b || (a == b && lexLt as bs)

/-- Insertion into a `BTreeMap<Vec<u8>, Vec<u8>>` viewed as a sorted
association list: keeps keys strictly ascending, replaces on an equal key. -/
def btreeInsert (k v : Bytes) : List (Bytes × Bytes) → List (Bytes × Bytes)
  | [] => [(k, v)]
  | (k1, v1) :: t =>
    if lexLt k k1 then (k, v) :: (k1, v1) :: t
    else if k == k1 then (k, v) :: t
    else (k1, v1) :: btreeInsert k v t

/-- UTF-8 bytes of a Lean string, used for string literals of the source. -/
def strBytes (s : String) : Bytes :=
  s.data.flatMap fun c => (String.utf8EncodeChar c).map fun b => b.toNat

/-- One step of the UTF-8 acceptor used to model `String::from_utf8`
(RFC 3629: no overlong forms, no surrogates, max U+10FFFF). The state is
`some (k, lo, hi)`: `k` continuation bytes still expected, the next byte
constrained to `[lo, hi]`; `k = 0` is a character boundary. -/
def utf8Step : Option (Nat × Nat × Nat) → Nat → Option (Nat × Nat × Nat)
  | none, _ => none
  | some (0, _, _), b =>
    if b < 0x80 then some (0, 0, 0)
    else if 0xC2 ≤ b ∧ b ≤ 0xDF then some (1, 0x80, 0xBF)
    else if b = 0xE0 then some (2, 0xA0, 0xBF)
    else if 0xE1 ≤ b ∧ b ≤ 0xEC then some (2, 0x80, 0xBF)
    else if b = 0xED then some (2, 0x80, 0x9F)
    else if 0xEE ≤ b ∧ b ≤ 0xEF then some (2, 0x80, 0xBF)
    else if b = 0xF0 then some (3, 0x90, 0xBF)
    else if 0xF1 ≤ b ∧ b ≤ 0xF3 then some (3, 0x80, 0xBF)
    else if b = 0xF4 then some (3, 0x80, 0x8F)
    else none
  | some (k + 1, lo, hi), b =>
    if lo ≤ b ∧ b ≤ hi then some (k, 0x80, 0xBF) else none

/-- UTF-8 validity, as checked by `String::from_utf8` / `cbor_event` text
reads: the acceptor survives every byte and ends on a character boundary. -/
def validUtf8 (l : Bytes) : Bool :=
  match l.foldl utf8Step (some (0, 0, 0)) with
  | some (0, _, _) => true
  | _ => false

/-- Byte legal in a lowercase `http::HeaderName`
(`HeaderName::from_lowercase` table: token chars with uppercase removed). -/
def isLowerHeaderByte (b : Nat) : Bool :=
  b == 33 || (35 ≤ b && b ≤ 39) || b == 42 || b == 43 || b == 45 || b == 46 ||
  (48 ≤ b && b ≤ 57) || b == 94 || b == 95 || b == 96 ||
  (97 ≤ b && b ≤ 122) || b == 124 || b == 126

/-- Validity of a header name for `HeaderName::from_lowercase`: nonempty,
every byte from the lowercase token table. -/
def validLowerHeaderName (n : Bytes) : Bool :=
  !n.isEmpty && n.all isLowerHeaderByte

/-- Byte legal in an `http::HeaderValue` built by `HeaderValue::from_str`. -/
def validHeaderValueByte (b : Nat) : Bool :=
  b == 9 || (32 ≤ b && b != 127)

/-- Byte accepted by `HeaderValue::to_str` (visible ASCII, space, tab). -/
def isVisibleAsciiByte (b : Nat) : Bool :=
  b == 9 || (32 ≤ b && b < 127)

/-- ASCII decimal rendering of an HTTP status code. `StatusCode` keeps the
invariant 100 ≤ status ≤ 999, so `as_u16().to_string()` is exactly these
three digit bytes. -/
def statusBytes (s : Nat) : Bytes :=
  [48 + s / 100, 48 + s / 10 % 10, 48 + s % 10]

/-- Parse of `StatusCode::from_str`: exactly three ASCII digits, leading
digit nonzero, hence a value in 100..=999. -/
def parseStatus (v : Bytes) : Option Nat :=
  match v with
  | [a, b, c] =>
    if 49 ≤ a ∧ a ≤ 57 ∧ 48 ≤ b ∧ b ≤ 57 ∧ 48 ≤ c ∧ c ≤ 57 then
      some ((a - 48) * 100 + (b - 48) * 10 + (c - 48))
    else none
  | _ => none

/-! ## Data model (`bundle.rs`) -/

/-- Magic bytes `HEADER_MAGIC_BYTES`. -/
def headerMagicBytes : Bytes := [0xf0, 0x9f, 0x8c, 0x90, 0xf0, 0x9f, 0x93, 0xa6]

/-- Length of the top-level CBOR array (`TOP_ARRAY_LEN`). -/
def topArrayLen : Nat := 5

/-- Recognized section names (`KNOWN_SECTION_NAMES`). -/
def knownSectionNames : List Bytes :=
  [strBytes "index", strBytes "critical", strBytes "responses", strBytes "primary"]

/-- The `Version` enum. -/
inductive Version where
  | versionB2
  | version1
  | unknown (bytes : Bytes)
deriving DecidableEq, Repr

/-- Bytes of a version (`Version::bytes`). -/
def Version.bytes : Version → Bytes
  | .versionB2 => [0x62, 0x32, 0, 0]
  | .version1 => [0x31, 0, 0, 0]
  | .unknown b => b

/-- Classification of a 4-byte version string (`Decoder::read_version`). -/
def classifyVersion (b : Bytes) : Version :=
  if b = Version.version1.bytes then .version1
  else if b = Version.versionB2.bytes then .versionB2
  else .unknown b

/-- The response triple of `http::Response<Vec<u8>>` as stored in an
exchange: status value (`StatusCode::as_u16`), header map as a list of
(lowercase name bytes, value bytes) pairs, body bytes. -/
structure Response where
  status : Nat
  headers : List (Bytes × Bytes)
  body : Bytes
deriving DecidableEq, Repr

/-- An exchange. Only the request URL is persisted on the wire
(`Request.headers` is always empty after decode), so the request side is
embedded as its URL bytes. -/
structure Exchange where
  url : Bytes
  response : Response
deriving DecidableEq, Repr

/-- The `Bundle` aggregate. `primary_url` is the canonical text of the
`http::Uri`, as byte list. -/
structure Bundle where
  version : Version
  primaryUrl : Option Bytes
  exchanges : List Exchange
deriving DecidableEq, Repr

/-! ## Encoder (`encoder.rs`) -/

/-- Bytes of `se.write_bytes(b)`: definite byte-string header plus payload. -/
def writeBytesItem (b : Bytes) : Bytes := cborHeader 2 b.length ++ b

/-- Bytes of `se.write_text(t)`: definite text-string header plus UTF-8
payload. -/
def writeTextItem (t : Bytes) : Bytes := cborHeader 3 t.length ++ t

/-- Bytes of `se.write_unsigned_integer(n)`. -/
def writeUInt (n : Nat) : Bytes := cborHeader 0 n

/-- Wrap a raw header pair the way `encode_headers` serializes each key and
value before inserting them into the `BTreeMap`. -/
def wrapPair (p : Bytes × Bytes) : Bytes × Bytes :=
  (writeBytesItem p.1, writeBytesItem p.2)

/-- The sorted `BTreeMap` built by `encode_headers`: the `:status` pair is
inserted first, then every header pair, all keys and values serialized as
CBOR byte strings. -/
def encodeHeadersMap (r : Response) : List (Bytes × Bytes) :=
  (((strBytes ":status", statusBytes r.status) :: r.headers).map wrapPair).foldl
    (fun m p => btreeInsert p.1 p.2 m) []

/-- Bytes of `encode_headers`: a CBOR map header with the `BTreeMap` size,
then the sorted serialized pairs. -/
def encode_headers (r : Response) : Bytes :=
  cborHeader 5 (encodeHeadersMap r).length ++
    ((encodeHeadersMap r).map (fun p => p.1 ++ p.2)).flatten

/-- Bytes of one `[headers, body]` response entry inside the responses
section. -/
def responseEntryBytes (r : Response) : Bytes :=
  cborHeader 4 2 ++ writeBytesItem (encode_headers r) ++ writeBytesItem r.body

/-- A recorded `(url, offset, length)` of one response
(`encoder.rs` struct `ResponseLocation`). -/
structure ResponseLocation where
  url : Bytes
  offset : Nat
  length : Nat
deriving DecidableEq, Repr

/-- Loop of `encode_response_section`: `out` is the byte count already
written to the counting sink; each exchange records the count before its
entry as offset and the entry size as length. -/
def encodeResponsesLoop : List Exchange → Nat → Bytes × List ResponseLocation
  | [], _ => ([], [])
  | e :: t, count =>
    let entry := responseEntryBytes e.response
    let rest := encodeResponsesLoop t (count + entry.length)
    (entry ++ rest.1, ⟨e.url, count, entry.length⟩ :: rest.2)

/-- Bytes and response locations of `encode_response_section`. -/
def encode_response_section (exs : List Exchange) : Bytes × List ResponseLocation :=
  let hdr := cborHeader 4 exs.length
  let rest := encodeResponsesLoop exs hdr.length
  (hdr ++ rest.1, rest.2)

/-- Serialized index key of a URL. -/
def indexKey (url : Bytes) : Bytes := writeTextItem url

/-- Serialized index value `[offset, length]`. -/
def indexValue (off len : Nat) : Bytes :=
  cborHeader 4 2 ++ writeUInt off ++ writeUInt len

/-- The sorted `BTreeMap` built by `encode_index_section`. A duplicate URL
replaces the earlier entry (`BTreeMap::insert`). -/
def indexMap (locs : List ResponseLocation) : List (Bytes × Bytes) :=
  locs.foldl (fun m loc => btreeInsert (indexKey loc.url) (indexValue loc.offset loc.length) m) []

/-- Bytes of `encode_index_section`. The map header is written with
`response_locations.len()`, not with the size of the `BTreeMap`. -/
def encode_index_section (locs : List ResponseLocation) : Bytes :=
  cborHeader 5 locs.length ++ ((indexMap locs).map (fun p => p.1 ++ p.2)).flatten

/-- Bytes of `encode_primary_url_section`. -/
def encode_primary_url_section (u : Bytes) : Bytes := writeTextItem u

/-- A named section (`encoder.rs` struct `Section`). -/
structure BundleSection where
  name : Bytes
  bytes : Bytes
deriving DecidableEq, Repr

/-- Sections emitted by `encode_sections`: optional `primary`, then
`index`, then `responses`. -/
def encode_sections (b : Bundle) : List BundleSection :=
  let pr : List BundleSection :=
    match b.primaryUrl with
    | some u => [⟨strBytes "primary", encode_primary_url_section u⟩]
    | none => []
  let rs := encode_response_section b.exchanges
  pr ++ [⟨strBytes "index", encode_index_section rs.2⟩, ⟨strBytes "responses", rs.1⟩]

/-- Bytes of `encode_section_lengths`: an embedded CBOR array alternating
section name and section byte length. -/
def encode_section_lengths (sections : List BundleSection) : Bytes :=
  cborHeader 4 (sections.length * 2) ++
    (sections.map (fun s => writeTextItem s.name ++ writeUInt s.bytes.length)).flatten

/-- All bytes written by `Encoder::encode` before the trailing length. -/
def encodeCore (b : Bundle) : Bytes :=
  let sections := encode_sections b
  cborHeader 4 topArrayLen ++
    writeBytesItem headerMagicBytes ++
    writeBytesItem b.version.bytes ++
    writeBytesItem (encode_section_lengths sections) ++
    cborHeader 4 sections.length ++
    (sections.map (fun s => s.bytes)).flatten

/-- Full output of `Encoder::encode`: the core followed by the big-endian
64-bit trailing length, whose value counts the 8 trailer bytes themselves. -/
def encodeBytes (b : Bundle) : Bytes :=
  encodeCore b ++ beBytes 8 ((encodeCore b).length + 8)

/-- Success condition of `Bundle::encode`: the only fallible step besides
sink I/O is `HeaderValue::to_str` on every response header value. -/
def encodeOk (b : Bundle) : Bool :=
  b.exchanges.all fun e => e.response.headers.all fun p => p.2.all isVisibleAsciiByte

/-- Result of `Bundle::encode` (`encoder::encode_to_vec`). -/
def encode (b : Bundle) : Except Unit Bytes :=
  if encodeOk b then .ok (encodeBytes b) else .error ()

/-! ## Decoder (`decoder.rs`) -/

/-- Decode outcomes. Every `ensure!`/`bail!` site of the decoder and every
`cbor_event` / `String::from_utf8` failure is a structured error;
`panicked` is the Rust panic of the unchecked slice in
`new_decoder_from_range` (and of the unreachable `unwrap` in
`read_sections`), kept distinct from all structured errors. -/
inductive DErr where
  | cbor
  | topLen
  | badMagic
  | badVersion
  | sectionTableTooLarge
  | duplicateSection
  | emptySections
  | missingResponses
  | sectionCountMismatch
  | badIndexEntry
  | badResponseEntry
  | unknownPseudo
  | dupStatus
  | noStatus
  | badStatus
  | badHeaderName
  | badHeaderValue
  | panicked
deriving DecidableEq, Repr

/-- Decoder state: the `Cursor` of `cbor_event::de::Deserializer`, a
buffer plus a read position. -/
structure DState where
  buf : Bytes
  pos : Nat
deriving DecidableEq, Repr

/-- Unread remainder of the cursor. -/
def DState.rem (s : DState) : Bytes := s.buf.drop s.pos

/-- Length argument of a CBOR header: definite or indefinite. -/
inductive CLen where
  | fin (n : Nat)
  | indef
deriving DecidableEq, Repr

/-- Read exactly `n` bytes off the front of a list. -/
def takeExact (n : Nat) (l : Bytes) : Option (Bytes × Bytes) :=
  if n ≤ l.length then some (l.take n, l.drop n) else none

/-- Parse one CBOR item header: major type and additional information,
reading the 1, 2, 4 or 8 extension bytes where required; additional
information 28 to 30 is malformed. -/
def readTypeLen (l : Bytes) : Option (Nat × CLen × Bytes) :=
  match l with
  | [] => none
  | b :: rest =>
    let major := b / 32
    let ai := b % 32
    if ai < 24 then some (major, .fin ai, rest)
    else if ai == 24 then (takeExact 1 rest).map (fun p => (major, .fin (beVal p.1), p.2))
    else if ai == 25 then (takeExact 2 rest).map (fun p => (major, .fin (beVal p.1), p.2))
    else if ai == 26 then (takeExact 4 rest).map (fun p => (major, .fin (beVal p.1), p.2))
    else if ai == 27 then (takeExact 8 rest).map (fun p => (major, .fin (beVal p.1), p.2))
    else if ai == 31 then some (major, .indef, rest)
    else none

/-- Parse one header at the cursor and advance it. -/
def dStep (s : DState) : Option (Nat × CLen × DState) :=
  (readTypeLen s.rem).map fun t => (t.1, t.2.1, ⟨s.buf, s.buf.length - t.2.2.length⟩)

/-- Advance the cursor over `n` raw bytes, returning them. -/
def dTake (n : Nat) (s : DState) : Except DErr (Bytes × DState) :=
  match takeExact n s.rem with
  | some p => .ok (p.1, ⟨s.buf, s.pos + n⟩)
  | none => .error .cbor

/-- Model of `Deserializer::unsigned_integer`: a definite major-type-0 item. -/
def dUInt (s : DState) : Except DErr (Nat × DState) :=
  match dStep s with
  | some (0, .fin n, s1) => .ok (n, s1)
  | _ => .error .cbor

/-- Model of `Deserializer::bytes` on definite-length byte strings. -/
def dBytes (s : DState) : Except DErr (Bytes × DState) :=
  match dStep s with
  | some (2, .fin n, s1) => dTake n s1
  | _ => .error .cbor

/-- Model of `Deserializer::text`: definite-length, UTF-8 checked. -/
def dText (s : DState) : Except DErr (Bytes × DState) :=
  match dStep s with
  | some (3, .fin n, s1) =>
    match dTake n s1 with
    | .ok p => if validUtf8 p.1 then .ok p else .error .cbor
    | .error e => .error e
  | _ => .error .cbor

/-- Model of `Decoder::read_array_len`: a definite array header; the
indefinite case is the `bail!` branch. -/
def read_array_len (s : DState) : Except DErr (Nat × DState) :=
  match dStep s with
  | some (4, .fin n, s1) => .ok (n, s1)
  | _ => .error .cbor

/-- Definite map header, as matched in `read_index` / `read_headers_cbor`. -/
def dMapLen (s : DState) : Except DErr (Nat × DState) :=
  match dStep s with
  | some (5, .fin n, s1) => .ok (n, s1)
  | _ => .error .cbor

/-- Model of `Decoder::read_magic_bytes`. -/
def read_magic_bytes (s : DState) : Except DErr DState :=
  match dBytes s with
  | .ok (m, s1) => if m = headerMagicBytes then .ok s1 else .error .badMagic
  | .error e => .error e

/-- Model of `Decoder::read_version`. -/
def read_version (s : DState) : Except DErr (Version × DState) :=
  match dBytes s with
  | .ok (b, s1) => if b.length = 4 then .ok (classifyVersion b, s1) else .error .badVersion
  | .error e => .error e

/-- One entry of the section table (`decoder.rs` struct `SectionOffset`),
with the absolute offset already computed. -/
structure SectionOffset where
  name : Bytes
  offset : Nat
  length : Nat
deriving DecidableEq, Repr

/-- Loop body of `read_section_offsets_cbor`: alternating name and length,
rejecting duplicate names, accumulating absolute offsets. -/
def readSectionOffsetsLoop :
    Nat → DState → Nat → List Bytes → List SectionOffset → Except DErr (List SectionOffset)
  | 0, _, _, _, acc => .ok acc.reverse
  | num + 1, s, offset, seen, acc => do
    let (name, s1) ← dText s
    if seen.contains name then throw .duplicateSection
    else do
      let (len, s2) ← dUInt s1
      readSectionOffsetsLoop num s2 (offset + len) (name :: seen) (⟨name, offset, len⟩ :: acc)

/-- Model of `Decoder::read_section_offsets_cbor`, run on the embedded
section-lengths blob: the absolute base is the outer position plus the
inner position after the inner array header. -/
def read_section_offsets_cbor (inner : DState) (offset0 : Nat) :
    Except DErr (List SectionOffset) := do
  let (n, s1) ← read_array_len inner
  let sos ← readSectionOffsetsLoop (n / 2) s1 (offset0 + s1.pos) [] []
  match sos.getLast? with
  | some lastSo =>
    if lastSo.name = strBytes "responses" then pure sos else throw .missingResponses
  | none => throw .emptySections

/-- Model of `Decoder::read_section_offsets`: the byte-string blob, the
8192-byte guard, then the embedded decode based at the current position. -/
def read_section_offsets (s : DState) : Except DErr (List SectionOffset × DState) := do
  let (blob, s1) ← dBytes s
  if blob.length < 8192 then do
    let sos ← read_section_offsets_cbor ⟨blob, 0⟩ s1.pos
    pure (sos, s1)
  else throw .sectionTableTooLarge

/-- Decoded metadata (`decoder.rs` struct `Metadata`). -/
structure Metadata where
  version : Version
  sectionOffsets : List SectionOffset
deriving DecidableEq, Repr

/-- Model of `Decoder::read_metadata`. -/
def read_metadata (s : DState) : Except DErr (Metadata × DState) := do
  let (n, s1) ← read_array_len s
  if n = topArrayLen then do
    let s2 ← read_magic_bytes s1
    let (v, s3) ← read_version s2
    let (sos, s4) ← read_section_offsets s3
    pure (⟨v, sos⟩, s4)
  else throw .topLen

/-- Model of `Decoder::new_decoder_from_range`: a sub-decoder over
`buf[start..stop]`. The source has `TODO: Check range, instead of panic`;
an out-of-range slice is the Rust panic, modelled as `DErr.panicked`. -/
def new_decoder_from_range (s : DState) (start stop : Nat) : Except DErr DState :=
  if start ≤ stop ∧ stop ≤ s.buf.length then .ok ⟨(s.buf.drop start).take (stop - start), 0⟩
  else .error .panicked

/-- An index entry (`decoder.rs` struct `RequestEntry`), the response
location already shifted by the responses-section offset
(`ResponseLocation::new`). -/
structure RequestEntry where
  url : Bytes
  offset : Nat
  length : Nat
deriving DecidableEq, Repr

/-- Model of `Decoder::read_primary_url`. `Uri` parsing of the text is the
identity on the canonical form (external `http` crate). -/
def read_primary_url (s : DState) : Except DErr Bytes := do
  let (t, _) ← dText s
  pure t

/-- Loop body of `Decoder::read_index`. -/
def readIndexLoop : Nat → DState → Nat → List RequestEntry → Except DErr (List RequestEntry)
  | 0, _, _, acc => .ok acc.reverse
  | n + 1, s, respOff, acc => do
    let (url, s1) ← dText s
    let (al, s2) ← read_array_len s1
    if al = 2 then do
      let (off, s3) ← dUInt s2
      let (len, s4) ← dUInt s3
      readIndexLoop n s4 respOff (⟨url, respOff + off, len⟩ :: acc)
    else throw .badIndexEntry

/-- Model of `Decoder::read_index`. -/
def read_index (s : DState) (respOff : Nat) : Except DErr (List RequestEntry) := do
  let (n, s1) ← dMapLen s
  readIndexLoop n s1 respOff []

/-- Loop of `Decoder::read_sections`: unknown names are skipped before any
slice is taken; known names (including `critical`) first build the
sub-decoder over the section's range, then dispatch — and the source match
sends `critical` to the catch-all arm, which only logs. -/
def readSectionsLoop (outer : DState) (respOff : Nat) :
    List SectionOffset → List RequestEntry → Option Bytes →
    Except DErr (List RequestEntry × Option Bytes)
  | [], requests, primary => .ok (requests, primary)
  | so :: t, requests, primary =>
    if knownSectionNames.contains so.name then do
      let sub ← new_decoder_from_range outer so.offset (so.offset + so.length)
      if so.name = strBytes "index" then do
        let reqs ← read_index sub respOff
        readSectionsLoop outer respOff t reqs primary
      else if so.name = strBytes "responses" then
        readSectionsLoop outer respOff t requests primary
      else if so.name = strBytes "primary" then do
        let u ← read_primary_url sub
        readSectionsLoop outer respOff t requests (some u)
      else
        readSectionsLoop outer respOff t requests primary
    else readSectionsLoop outer respOff t requests primary

/-- Model of `Decoder::read_sections`. -/
def read_sections (s : DState) (sos : List SectionOffset) :
    Except DErr ((List RequestEntry × Option Bytes) × DState) := do
  let (n, s1) ← read_array_len s
  if n = sos.length then
    match sos.getLast? with
    | some lastSo => do
      let rp ← readSectionsLoop s1 lastSo.offset sos [] none
      pure (rp, s1)
    | none => throw .panicked
  else throw .sectionCountMismatch

/-- Model of `HeaderMap::insert`: replace the value of an existing name,
otherwise add the pair. -/
def headerInsert (n v : Bytes) : List (Bytes × Bytes) → List (Bytes × Bytes)
  | [] => [(n, v)]
  | (n1, v1) :: t => if n = n1 then (n, v) :: t else (n1, v1) :: headerInsert n v t

/-- Loop body of `Decoder::read_headers_cbor`: name and value as UTF-8
byte strings, the `:status` pseudo-header handled once, regular names
checked by `HeaderName::from_lowercase` and values by
`HeaderValue::from_str`. -/
def readHeadersLoop :
    Nat → DState → Option Nat → List (Bytes × Bytes) →
    Except DErr (Option Nat × List (Bytes × Bytes))
  | 0, _, status, headers => .ok (status, headers)
  | n + 1, s, status, headers => do
    let (nameB, s1) ← dBytes s
    if validUtf8 nameB then do
      let (valB, s2) ← dBytes s1
      if validUtf8 valB then
        if nameB.head? = some 58 then
          if nameB = strBytes ":status" then
            match status with
            | some _ => throw .dupStatus
            | none =>
              match parseStatus valB with
              | some v => readHeadersLoop n s2 (some v) headers
              | none => throw .badStatus
          else throw .unknownPseudo
        else
          if validLowerHeaderName nameB then
            if valB.all validHeaderValueByte then
              readHeadersLoop n s2 status (headerInsert nameB valB headers)
            else throw .badHeaderValue
          else throw .badHeaderName
      else throw .cbor
    else throw .cbor

/-- Model of `Decoder::read_headers_cbor`. -/
def read_headers_cbor (s : DState) : Except DErr (Nat × List (Bytes × Bytes)) := do
  let (n, s1) ← dMapLen s
  let r ← readHeadersLoop n s1 none []
  match r.1 with
  | some st => pure (st, r.2)
  | none => throw .noStatus

/-- Model of `Decoder::read_response`. -/
def read_response (s : DState) : Except DErr Response := do
  let (al, s1) ← read_array_len s
  if al = 2 then do
    let (hb, s2) ← dBytes s1
    let sh ← read_headers_cbor ⟨hb, 0⟩
    let (body, _) ← dBytes s2
    pure ⟨sh.1, sh.2, body⟩
  else throw .badResponseEntry

/-- Model of `Decoder::read_responses`. -/
def read_responses (s : DState) : List RequestEntry → Except DErr (List Exchange)
  | [] => .ok []
  | e :: t => do
    let sub ← new_decoder_from_range s e.offset (e.offset + e.length)
    let resp ← read_response sub
    let rest ← read_responses s t
    pure (⟨e.url, resp⟩ :: rest)

/-- Model of `Decoder::decode`, entry point `decoder::parse` /
`Bundle::from_bytes`. -/
def decode (buf : Bytes) : Except DErr Bundle := do
  let (md, s1) ← read_metadata ⟨buf, 0⟩
  let (rp, s2) ← read_sections s1 md.sectionOffsets
  let exchanges ← read_responses s2 rp.1
  pure ⟨md.version, rp.2, exchanges⟩

/-! ## Derived definitions used by the verification -/

deriving instance DecidableEq for Except

/-- Mirror of `btreeInsert` acting on unserialized header pairs, compared
through their serialized keys; `encodeHeadersMap` is its image under
`wrapPair`. -/
def rawInsert (p : Bytes × Bytes) : List (Bytes × Bytes) → List (Bytes × Bytes)
  | [] => [p]
  | q :: t =>
    if lexLt (writeBytesItem p.1) (writeBytesItem q.1) then p :: q :: t
    else if writeBytesItem p.1 == writeBytesItem q.1 then p :: t
    else q :: rawInsert p t

/-- Header pairs sorted by serialized-key order (last wins on equal keys),
the unserialized view of the encoder BTreeMap. -/
def rawHeaderSort (l : List (Bytes × Bytes)) : List (Bytes × Bytes) :=
  l.foldl (fun m p => rawInsert p m) []

/-- Headers of a response as they come back from a decode of this
encoder's output: sorted by serialized-key order, with the `:status`
pseudo-header projected away. -/
def decodedHeaders (r : Response) : List (Bytes × Bytes) :=
  (rawHeaderSort ((strBytes ":status", statusBytes r.status) :: r.headers)).filter
    fun p => !(p.1.head? == some 58)

/-- Response after an encode-decode round trip. -/
def decodedResponse (r : Response) : Response :=
  ⟨r.status, decodedHeaders r, r.body⟩

/-- Bundle after an encode-decode round trip: the version re-classified
from its bytes, exchanges in encoder (index) order with canonically sorted
headers. -/
def decodedBundle (b : Bundle) : Bundle :=
  ⟨classifyVersion b.version.bytes, b.primaryUrl,
    b.exchanges.map fun e => ⟨e.url, decodedResponse e.response⟩⟩

/-- Absolute section offsets belonging to a section list, starting at a
base position. -/
def offsetsOf : List BundleSection → Nat → List SectionOffset
  | [], _ => []
  | s :: t, base => ⟨s.name, base, s.bytes.length⟩ :: offsetsOf t (base + s.bytes.length)

/-- Rust type invariants of one response reaching the encoder:
`StatusCode` range, `HeaderName`/`HeaderValue` wellformedness, `HeaderMap`
key uniqueness, `usize` bounds of every serialized length. -/
@[reducible] def WfResponse (r : Response) : Prop :=
  100 ≤ r.status ∧ r.status ≤ 999 ∧
  r.body.length < 2 ^ 64 ∧
  (encode_headers r).length < 2 ^ 64 ∧
  r.headers.length + 1 < 2 ^ 64 ∧
  (r.headers.map Prod.fst).Nodup ∧
  ∀ p ∈ r.headers, validLowerHeaderName p.1 = true ∧ p.1.length < 2 ^ 64 ∧
    p.2.length < 2 ^ 64 ∧ p.2.all isVisibleAsciiByte = true

/-- Rust type invariants of a bundle built by `Builder::build`: a version
whose bytes classify back to itself (`[u8; 4]`), UTF-8 URL strings, and
`usize` bounds of the serialized sections. -/
@[reducible] def WfBundle (b : Bundle) : Prop :=
  classifyVersion b.version.bytes = b.version ∧
  b.version.bytes.length = 4 ∧
  (∀ u ∈ b.primaryUrl.toList, validUtf8 u = true ∧ u.length < 2 ^ 64) ∧
  b.exchanges.length < 2 ^ 64 ∧
  (∀ s ∈ encode_sections b, s.bytes.length < 2 ^ 64) ∧
  ∀ e ∈ b.exchanges, validUtf8 e.url = true ∧ e.url.length < 2 ^ 64 ∧ WfResponse e.response

/-- Exchange URLs listed in strictly ascending canonical (serialized index
key) order. -/
@[reducible] def urlsSorted (exs : List Exchange) : Prop :=
  exs.Pairwise fun a b => lexLt (indexKey a.url) (indexKey b.url) = true

/-- Pure view of one pass of the `read_headers_cbor` loop over already
split (name, value) pairs: the byte reads removed, all checks kept. -/
def procPairs : List (Bytes × Bytes) → Option Nat → List (Bytes × Bytes) →
    Except DErr (Option Nat × List (Bytes × Bytes))
  | [], st, hd => .ok (st, hd)
  | p :: t, st, hd =>
    if p.1.head? = some 58 then
      if p.1 = strBytes ":status" then
        match st with
        | some _ => .error .dupStatus
        | none =>
          match parseStatus p.2 with
          | some v => procPairs t (some v) hd
          | none => .error .badStatus
      else .error .unknownPseudo
    else
      if validLowerHeaderName p.1 = true then
        if p.2.all validHeaderValueByte = true then procPairs t st (headerInsert p.1 p.2 hd)
        else .error .badHeaderValue
      else .error .badHeaderName

/-- Response locations recorded by `encode_response_section`, written as a
function of the starting count. -/
def locsFrom : List Exchange → Nat → List ResponseLocation
  | [], _ => []
  | e :: t, count =>
    ⟨e.url, count, (responseEntryBytes e.response).length⟩ ::
      locsFrom t (count + (responseEntryBytes e.response).length)

/-- Sortedness of a `BTreeMap` association list: keys strictly ascending. -/
def keysSorted (m : List (Bytes × Bytes)) : Prop :=
  m.Pairwise fun p q => lexLt p.1 q.1 = true

/-! ## Concrete inputs used in the claim analyses -/

/-- A bundle producible by the builder whose exchange URLs are not in
canonical index order (`"d"` before `"c"`). -/
def c1CexBundle : Bundle :=
  ⟨.versionB2, none, [⟨strBytes "d", ⟨200, [], []⟩⟩, ⟨strBytes "c", ⟨200, [], []⟩⟩]⟩

/-- What `c1CexBundle` decodes back to: the same exchanges in index
(canonical) order. -/
def c1CexDecoded : Bundle :=
  ⟨.versionB2, none, [⟨strBytes "c", ⟨200, [], []⟩⟩, ⟨strBytes "d", ⟨200, [], []⟩⟩]⟩

/-- A wellformed single-exchange bundle with a primary URL and one header. -/
def c1WitBundle : Bundle :=
  ⟨.versionB2, some (strBytes "https://w.example/"),
    [⟨strBytes "https://w.example/",
      ⟨200, [(strBytes "content-type", strBytes "text/html")], [104, 105]⟩⟩]⟩

/-- A bundle added in the order `"b"`, `"a"`. -/
def c2CexBundle : Bundle :=
  ⟨.versionB2, none, [⟨strBytes "b", ⟨200, [], [1]⟩⟩, ⟨strBytes "a", ⟨200, [], [2]⟩⟩]⟩

/-- What `c2CexBundle` decodes back to: URL order `"a"`, `"b"`. -/
def c2CexDecoded : Bundle :=
  ⟨.versionB2, none, [⟨strBytes "a", ⟨200, [], [2]⟩⟩, ⟨strBytes "b", ⟨200, [], [1]⟩⟩]⟩

/-- A two-exchange bundle whose URLs are already in canonical order. -/
def c2WitBundle : Bundle :=
  ⟨.versionB2, none, [⟨strBytes "x", ⟨200, [], []⟩⟩, ⟨strBytes "y", ⟨200, [], []⟩⟩]⟩

/-- A wellformed bundle used to build a truncated input. -/
def c3Base : Bundle :=
  ⟨.versionB2, some (strBytes "https://x.example/"),
    [⟨strBytes "https://x.example/a", ⟨200, [], [10, 20, 30, 40]⟩⟩]⟩

/-- A strict prefix of the valid encoding of `c3Base`: the 8-byte trailer
and the last two body bytes removed, so the recorded response range
overhangs the truncated buffer. -/
def c3Input : Bytes := (encodeBytes c3Base).take ((encodeBytes c3Base).length - 10)

/-- A critical section content: the CBOR array `["signatures"]`, naming a
section the decoder does not implement (12 bytes). -/
def c4Critical : Bytes := cborHeader 4 1 ++ writeTextItem (strBytes "signatures")

/-- Sections of the `c4input` family: a 12-byte `critical` payload `c`, an
empty index map and an empty responses array. -/
def c4Secs (c : Bytes) : List BundleSection :=
  [⟨strBytes "critical", c⟩, ⟨strBytes "index", cborHeader 5 0⟩,
    ⟨strBytes "responses", cborHeader 4 0⟩]

/-- A complete bundle input whose critical section content is `c`. -/
def c4input (c : Bytes) : Bytes :=
  cborHeader 4 5 ++ (writeBytesItem headerMagicBytes ++
    (writeBytesItem Version.versionB2.bytes ++
      (writeBytesItem (encode_section_lengths (c4Secs c)) ++
        (cborHeader 4 3 ++ (c ++ (cborHeader 5 0 ++ cborHeader 4 0))))))

/-- A bundle with two exchanges under the same URL. -/
def c5Bundle : Bundle :=
  ⟨.versionB2, none, [⟨strBytes "u", ⟨200, [], [1]⟩⟩, ⟨strBytes "u", ⟨200, [], [2]⟩⟩]⟩

/-- The response locations recorded while encoding `c5Bundle`. -/
def c5Locs : List ResponseLocation := (encode_response_section c5Bundle.exchanges).2

/-- A minimal wellformed bundle. -/
def c7WitBundle : Bundle :=
  ⟨.versionB2, none, [⟨strBytes "z", ⟨200, [], []⟩⟩]⟩

/-- A headers map whose only key is the undefined pseudo-header `:x`. -/
def c8PseudoInput : Bytes :=
  cborHeader 5 1 ++ (writeBytesItem (strBytes ":x") ++ writeBytesItem (strBytes "1"))

/-- A headers map carrying `:status` twice. -/
def c8DupInput : Bytes :=
  cborHeader 5 2 ++ (writeBytesItem (strBytes ":status") ++ (writeBytesItem (strBytes "200") ++
    (writeBytesItem (strBytes ":status") ++ writeBytesItem (strBytes "201"))))

/-- A headers map with an uppercase regular header name. -/
def c8UpperInput : Bytes :=
  cborHeader 5 2 ++ (writeBytesItem (strBytes ":status") ++ (writeBytesItem (strBytes "200") ++
    (writeBytesItem (strBytes "Abc") ++ writeBytesItem (strBytes "x"))))

/-- A headers map whose regular header name is the non-ASCII UTF-8
character U+00E9. -/
def c8NonAsciiInput : Bytes :=
  cborHeader 5 2 ++ (writeBytesItem (strBytes ":status") ++ (writeBytesItem (strBytes "200") ++
    (writeBytesItem [195, 169] ++ writeBytesItem (strBytes "x"))))

/-- A headers map with a regular header but no `:status`. -/
def c8NoStatusInput : Bytes :=
  cborHeader 5 1 ++ (writeBytesItem (strBytes "abc") ++ writeBytesItem (strBytes "x"))

/-- A valid headers map: `:status 200` and one regular header. -/
def c8OkInput : Bytes :=
  cborHeader 5 2 ++ (writeBytesItem (strBytes ":status") ++ (writeBytesItem (strBytes "200") ++
    (writeBytesItem (strBytes "abc") ++ writeBytesItem (strBytes "x"))))

/-- An index section declaring one entry whose range `[1, 20)` overhangs
the 17-byte responses section by three bytes. -/
def c10Index : Bytes :=
  cborHeader 5 1 ++ (writeTextItem (strBytes "a") ++
    (cborHeader 4 2 ++ (writeUInt 1 ++ writeUInt 19)))

/-- A responses section holding one entry, 17 bytes in total. -/
def c10Resp : Bytes := cborHeader 4 1 ++ responseEntryBytes ⟨200, [], []⟩

/-- Sections of the overhanging input. -/
def c10Secs : List BundleSection :=
  [⟨strBytes "index", c10Index⟩, ⟨strBytes "responses", c10Resp⟩]

/-- All bytes of the overhanging input up to the end of the sections
array, the part shared by both C10 counterexample inputs. -/
def c10Core : Bytes :=
  cborHeader 4 5 ++ (writeBytesItem headerMagicBytes ++
    (writeBytesItem Version.versionB2.bytes ++
      (writeBytesItem (encode_section_lengths c10Secs) ++
        (cborHeader 4 2 ++ (c10Index ++ c10Resp)))))

/-- A minimal wellformed bundle for the trailer-independence instance. -/
def c10WitBundle : Bundle :=
  ⟨.versionB2, none, [⟨strBytes "w", ⟨200, [], [9]⟩⟩]⟩

/-! ## Byte-level lemmas -/

theorem beBytes_length (w n : Nat) : (beBytes w n).length = w := by
  induction w generalizing n with
  | zero => rfl
  | succ w ih => simp [beBytes, ih]

theorem beVal_append_one (l : Bytes) (b : Nat) : beVal (l ++ [b]) = beVal l * 256 + b := by
  simp [beVal, List.foldl_append]

theorem beVal_beBytes (w n : Nat) (h : n < 256 ^ w) : beVal (beBytes w n) = n := by
  induction w generalizing n with
  | zero =>
    have h0 : n = 0 := by simpa using h
    simp [beBytes, beVal, h0]
  | succ w ih =>
    rw [beBytes, beVal_append_one, ih (n / 256) (Nat.div_lt_of_lt_mul (by rw [pow_succ] at h; omega))]
    omega

theorem takeExact_of_eq (n : Nat) (l r : Bytes) (h : l.length = n) :
    takeExact n (l ++ r) = some (l, r) := by
  subst h
  simp [takeExact, List.take_left, List.drop_left]

theorem readTypeLen_cborHeader (m n : Nat) (r : Bytes) (hn : n < 2 ^ 64) :
    readTypeLen (cborHeader m n ++ r) = some (m, .fin n, r) := by
  unfold cborHeader
  by_cases h1 : n < 24
  · have hdiv : (m * 32 + n) / 32 = m := by omega
    have hmod : (m * 32 + n) % 32 = n := by omega
    simp [readTypeLen, hdiv, hmod, h1]
  · by_cases h2 : n < 2 ^ 8
    · have hdiv : (m * 32 + 24) / 32 = m := by omega
      have hmod : (m * 32 + 24) % 32 = 24 := by omega
      have hbv : beVal (beBytes 1 n) = n := beVal_beBytes 1 n (by norm_num; omega)
      simp only [if_neg h1, if_pos h2, List.cons_append, readTypeLen, hdiv, hmod]
      norm_num
      rw [takeExact_of_eq 1 (beBytes 1 n) r (beBytes_length 1 n)]
      simp [hbv]
    · by_cases h3 : n < 2 ^ 16
      · have hdiv : (m * 32 + 25) / 32 = m := by omega
        have hmod : (m * 32 + 25) % 32 = 25 := by omega
        have hbv : beVal (beBytes 2 n) = n := beVal_beBytes 2 n (by norm_num; omega)
        simp only [if_neg h1, if_neg h2, if_pos h3, List.cons_append, readTypeLen, hdiv, hmod]
        norm_num
        rw [takeExact_of_eq 2 (beBytes 2 n) r (beBytes_length 2 n)]
        simp [hbv]
      · by_cases h4 : n < 2 ^ 32
        · have hdiv : (m * 32 + 26) / 32 = m := by omega
          have hmod : (m * 32 + 26) % 32 = 26 := by omega
          have hbv : beVal (beBytes 4 n) = n := beVal_beBytes 4 n (by norm_num; omega)
          simp only [if_neg h1, if_neg h2, if_neg h3, if_pos h4, List.cons_append, readTypeLen,
            hdiv, hmod]
          norm_num
          rw [takeExact_of_eq 4 (beBytes 4 n) r (beBytes_length 4 n)]
          simp [hbv]
        · have hdiv : (m * 32 + 27) / 32 = m := by omega
          have hmod : (m * 32 + 27) % 32 = 27 := by omega
          have hbv : beVal (beBytes 8 n) = n := beVal_beBytes 8 n (by norm_num; omega)
          simp only [if_neg h1, if_neg h2, if_neg h3, if_neg h4, List.cons_append, readTypeLen,
            hdiv, hmod]
          norm_num
          rw [takeExact_of_eq 8 (beBytes 8 n) r (beBytes_length 8 n)]
          simp [hbv]

theorem drop_advance {buf : Bytes} {pos : Nat} {x r : Bytes} (h : buf.drop pos = x ++ r) :
    buf.drop (pos + x.length) = r := by
  have h2 : (buf.drop pos).drop x.length = buf.drop (pos + x.length) := List.drop_drop _ _ _
  rw [h] at h2
  rw [← h2, List.drop_left]

theorem pos_advance_le {buf : Bytes} {pos : Nat} {x r : Bytes}
    (hpos : pos ≤ buf.length) (h : buf.drop pos = x ++ r) :
    pos + x.length ≤ buf.length ∧ buf.length - r.length = pos + x.length := by
  have h2 := congrArg List.length h
  simp [List.length_drop] at h2
  omega

theorem dStep_ok {buf : Bytes} {pos m n : Nat} {r : Bytes}
    (hpos : pos ≤ buf.length) (hn : n < 2 ^ 64)
    (hrem : buf.drop pos = cborHeader m n ++ r) :
    dStep ⟨buf, pos⟩ = some (m, .fin n, ⟨buf, pos + (cborHeader m n).length⟩) := by
  have hp := pos_advance_le hpos hrem
  unfold dStep DState.rem
  simp only [hrem, readTypeLen_cborHeader m n r hn, Option.map_some]
  simp [hp.2]

theorem dTake_ok {buf : Bytes} {pos : Nat} {x r : Bytes} {n : Nat}
    (hrem : buf.drop pos = x ++ r) (hx : x.length = n) :
    dTake n ⟨buf, pos⟩ = .ok (x, ⟨buf, pos + n⟩) := by
  unfold dTake DState.rem
  simp only [hrem, takeExact_of_eq n x r hx]

theorem dUInt_ok {buf : Bytes} {pos n : Nat} {r : Bytes}
    (hpos : pos ≤ buf.length) (hn : n < 2 ^ 64)
    (hrem : buf.drop pos = writeUInt n ++ r) :
    dUInt ⟨buf, pos⟩ = .ok (n, ⟨buf, pos + (writeUInt n).length⟩) := by
  simp only [writeUInt] at hrem ⊢
  unfold dUInt
  rw [dStep_ok hpos hn hrem]

theorem read_array_len_ok {buf : Bytes} {pos n : Nat} {r : Bytes}
    (hpos : pos ≤ buf.length) (hn : n < 2 ^ 64)
    (hrem : buf.drop pos = cborHeader 4 n ++ r) :
    read_array_len ⟨buf, pos⟩ = .ok (n, ⟨buf, pos + (cborHeader 4 n).length⟩) := by
  unfold read_array_len
  rw [dStep_ok hpos hn hrem]

theorem dMapLen_ok {buf : Bytes} {pos n : Nat} {r : Bytes}
    (hpos : pos ≤ buf.length) (hn : n < 2 ^ 64)
    (hrem : buf.drop pos = cborHeader 5 n ++ r) :
    dMapLen ⟨buf, pos⟩ = .ok (n, ⟨buf, pos + (cborHeader 5 n).length⟩) := by
  unfold dMapLen
  rw [dStep_ok hpos hn hrem]

theorem dBytes_ok {buf : Bytes} {pos : Nat} {x r : Bytes}
    (hpos : pos ≤ buf.length) (hx : x.length < 2 ^ 64)
    (hrem : buf.drop pos = writeBytesItem x ++ r) :
    dBytes ⟨buf, pos⟩ = .ok (x, ⟨buf, pos + (writeBytesItem x).length⟩) := by
  have hrem2 : buf.drop pos = cborHeader 2 x.length ++ (x ++ r) := by
    simpa [writeBytesItem, List.append_assoc] using hrem
  unfold dBytes
  rw [dStep_ok hpos hx hrem2]
  simp [dTake_ok (drop_advance hrem2) rfl, writeBytesItem, Nat.add_assoc]

theorem dText_ok {buf : Bytes} {pos : Nat} {x r : Bytes}
    (hpos : pos ≤ buf.length) (hx : x.length < 2 ^ 64) (hu : validUtf8 x = true)
    (hrem : buf.drop pos = writeTextItem x ++ r) :
    dText ⟨buf, pos⟩ = .ok (x, ⟨buf, pos + (writeTextItem x).length⟩) := by
  have hrem2 : buf.drop pos = cborHeader 3 x.length ++ (x ++ r) := by
    simpa [writeTextItem, List.append_assoc] using hrem
  unfold dText
  rw [dStep_ok hpos hx hrem2]
  simp [dTake_ok (drop_advance hrem2) rfl, writeTextItem, Nat.add_assoc, hu]

/-! ## Order lemmas for the BTreeMap model -/

theorem lexLt_irrefl (a : Bytes) : lexLt a a = false := by
  induction a with
  | nil => rfl
  | cons x t ih => simp [lexLt, ih]

theorem lexLt_total {a b : Bytes} (h1 : lexLt a b = false) (h2 : a ≠ b) : lexLt b a = true := by
  induction a generalizing b with
  | nil =>
    cases b with
    | nil => exact absurd rfl h2
    | cons y bs => simp [lexLt] at h1
  | cons x as ih =>
    cases b with
    | nil => simp [lexLt]
    | cons y bs =>
      simp only [lexLt, Bool.or_eq_false_iff, Bool.and_eq_false_iff, Bool.or_eq_true,
        Bool.and_eq_true, decide_eq_false_iff_not, decide_eq_true_eq, beq_iff_eq,
        beq_eq_false_iff_ne] at h1 ⊢
      rcases h1 with ⟨hxy, hrest⟩
      by_cases heq : x = y
      · subst heq
        rcases hrest with h | h
        · exact absurd rfl h
        · right
          refine ⟨rfl, ih h ?_⟩
          intro hab
          exact h2 (by rw [hab])
      · left
        omega

theorem lexLt_trans {a b c : Bytes} (h1 : lexLt a b = true) (h2 : lexLt b c = true) :
    lexLt a c = true := by
  induction a generalizing b c with
  | nil =>
    cases b with
    | nil => simp [lexLt] at h1
    | cons y bs =>
      cases c with
      | nil => simp [lexLt] at h2
      | cons z cs => simp [lexLt]
  | cons x as ih =>
    cases b with
    | nil => simp [lexLt] at h1
    | cons y bs =>
      cases c with
      | nil => simp [lexLt] at h2
      | cons z cs =>
        simp only [lexLt, Bool.or_eq_true, Bool.and_eq_true, decide_eq_true_eq,
          beq_iff_eq] at h1 h2 ⊢
        rcases h1 with h1 | ⟨h1e, h1r⟩
        · rcases h2 with h2 | ⟨h2e, h2r⟩
          · left; omega
          · left; omega
        · rcases h2 with h2 | ⟨h2e, h2r⟩
          · left; omega
          · right; exact ⟨by omega, ih h1r h2r⟩

theorem lexLt_asymm {a b : Bytes} (h : lexLt a b = true) : lexLt b a = false := by
  by_contra h2
  have h3 : lexLt b a = true := by
    cases h4 : lexLt b a with
    | false => exact absurd h4 h2
    | true => rfl
  have := lexLt_trans h h3
  rw [lexLt_irrefl] at this
  exact Bool.false_ne_true this

theorem lexLt_ne {a b : Bytes} (h : lexLt a b = true) : a ≠ b := by
  intro he
  subst he
  rw [lexLt_irrefl] at h
  exact Bool.false_ne_true h

theorem mem_btreeInsert {x : Bytes × Bytes} {k v : Bytes} {m : List (Bytes × Bytes)}
    (h : x ∈ btreeInsert k v m) : x = (k, v) ∨ x ∈ m := by
  induction m with
  | nil => simpa [btreeInsert] using h
  | cons q t ih =>
    obtain ⟨k1, v1⟩ := q
    simp only [btreeInsert] at h
    by_cases h1 : lexLt k k1 = true
    · rw [if_pos h1] at h
      rcases List.mem_cons.mp h with h2 | h2
      · left; exact h2
      · right; exact h2
    · rw [if_neg h1] at h
      by_cases h2 : (k == k1) = true
      · rw [if_pos h2] at h
        rcases List.mem_cons.mp h with h3 | h3
        · left; exact h3
        · right; simp [h3]
      · rw [if_neg h2] at h
        rcases List.mem_cons.mp h with h3 | h3
        · right; simp [h3]
        · rcases ih h3 with h4 | h4
          · left; exact h4
          · right; simp [h4]

theorem btreeInsert_gt (k v : Bytes) (m : List (Bytes × Bytes))
    (h : ∀ q ∈ m, lexLt q.1 k = true) : btreeInsert k v m = m ++ [(k, v)] := by
  induction m with
  | nil => rfl
  | cons q t ih =>
    obtain ⟨k1, v1⟩ := q
    have hq : lexLt k1 k = true := h (k1, v1) (by simp)
    have h1 : lexLt k k1 = false := lexLt_asymm hq
    have h2 : (k == k1) = false := by
      simp only [beq_eq_false_iff_ne, ne_eq]
      intro he
      exact lexLt_ne hq he.symm
    simp only [btreeInsert, h1, h2]
    simp only [Bool.false_eq_true, if_false]
    rw [ih (fun q hq2 => h q (by simp [hq2]))]
    simp

theorem btreeInsert_perm (k v : Bytes) (m : List (Bytes × Bytes))
    (h : ∀ q ∈ m, k ≠ q.1) : (btreeInsert k v m).Perm ((k, v) :: m) := by
  induction m with
  | nil => exact List.Perm.refl _
  | cons q t ih =>
    obtain ⟨k1, v1⟩ := q
    simp only [btreeInsert]
    by_cases h1 : lexLt k k1 = true
    · rw [if_pos h1]
    · rw [if_neg h1]
      have h2 : (k == k1) = false := by
        simp only [beq_eq_false_iff_ne, ne_eq]
        exact h (k1, v1) (by simp)
      rw [h2]
      simp only [Bool.false_eq_true, if_false]
      have hp := ih (fun q hq => h q (by simp [hq]))
      exact (hp.cons (k1, v1)).trans (List.Perm.swap (k, v) (k1, v1) t)

theorem btreeInsert_sorted (k v : Bytes) (m : List (Bytes × Bytes))
    (hm : keysSorted m) : keysSorted (btreeInsert k v m) := by
  induction m with
  | nil => simp [btreeInsert, keysSorted]
  | cons q t ih =>
    obtain ⟨k1, v1⟩ := q
    simp only [keysSorted, List.pairwise_cons] at hm
    simp only [btreeInsert]
    by_cases h1 : lexLt k k1 = true
    · rw [if_pos h1]
      simp only [keysSorted, List.pairwise_cons]
      refine ⟨?_, ?_⟩
      · intro q hq
        rcases List.mem_cons.mp hq with h | h
        · rw [h]; exact h1
        · exact lexLt_trans h1 (hm.1 q h)
      · exact ⟨hm.1, hm.2⟩
    · rw [if_neg h1]
      by_cases h2 : (k == k1) = true
      · have he : k = k1 := beq_iff_eq.mp h2
        rw [if_pos h2]
        simp only [keysSorted, List.pairwise_cons]
        exact ⟨fun q hq => he ▸ hm.1 q hq, hm.2⟩
      · rw [if_neg h2]
        simp only [keysSorted, List.pairwise_cons]
        refine ⟨?_, ih hm.2⟩
        intro q hq
        rcases mem_btreeInsert hq with h | h
        · rw [h]
          show lexLt k1 k = true
          have hne : k ≠ k1 := fun he => h2 (by simp [he])
          exact lexLt_total (by simpa using h1) hne
        · exact hm.1 q h

/-! ## Fold lemmas for the encoder maps -/

theorem btreeFold_sorted_append {α : Type} (fk fv : α → Bytes) :
    ∀ (l : List α) (m : List (Bytes × Bytes)),
    (∀ a ∈ l, ∀ q ∈ m, lexLt q.1 (fk a) = true) →
    l.Pairwise (fun a b => lexLt (fk a) (fk b) = true) →
    l.foldl (fun acc a => btreeInsert (fk a) (fv a) acc) m = m ++ l.map fun a => (fk a, fv a)
  | [], m, _, _ => by simp
  | a :: t, m, hall, hl => by
    simp only [List.foldl_cons, List.map_cons]
    rw [btreeInsert_gt (fk a) (fv a) m (fun q hq => hall a (by simp) q hq)]
    have hcond : ∀ x ∈ t, ∀ q ∈ m ++ [(fk a, fv a)], lexLt q.1 (fk x) = true := by
      intro x hx q hq
      rcases List.mem_append.mp hq with h | h
      · exact hall x (by simp [hx]) q h
      · have he : q = (fk a, fv a) := by simpa using h
        rw [he]
        exact (List.pairwise_cons.mp hl).1 x hx
    rw [btreeFold_sorted_append fk fv t (m ++ [(fk a, fv a)]) hcond (List.pairwise_cons.mp hl).2]
    simp

theorem btreeFold_sortedInv {α : Type} (fk fv : α → Bytes) :
    ∀ (l : List α) (m : List (Bytes × Bytes)), keysSorted m →
    keysSorted (l.foldl (fun acc a => btreeInsert (fk a) (fv a) acc) m)
  | [], _, hm => hm
  | a :: t, m, hm =>
    btreeFold_sortedInv fk fv t (btreeInsert (fk a) (fv a) m) (btreeInsert_sorted _ _ _ hm)

theorem writeBytesItem_inj {x y : Bytes} (hx : x.length < 2 ^ 64) (hy : y.length < 2 ^ 64)
    (h : writeBytesItem x = writeBytesItem y) : x = y := by
  have h1 := readTypeLen_cborHeader 2 x.length x hx
  have h2 := readTypeLen_cborHeader 2 y.length y hy
  rw [← writeBytesItem] at h1 h2
  rw [h, h2] at h1
  have h3 := Option.some.inj h1
  exact ((Prod.mk.injEq _ _ _ _).mp ((Prod.mk.injEq _ _ _ _).mp h3).2).2.symm

theorem mem_rawInsert {x p : Bytes × Bytes} {m : List (Bytes × Bytes)}
    (h : x ∈ rawInsert p m) : x = p ∨ x ∈ m := by
  induction m with
  | nil => simpa [rawInsert] using h
  | cons q t ih =>
    simp only [rawInsert] at h
    by_cases h1 : lexLt (writeBytesItem p.1) (writeBytesItem q.1) = true
    · rw [if_pos h1] at h
      rcases List.mem_cons.mp h with h2 | h2
      · left; exact h2
      · right; exact h2
    · rw [if_neg h1] at h
      by_cases h2 : (writeBytesItem p.1 == writeBytesItem q.1) = true
      · rw [if_pos h2] at h
        rcases List.mem_cons.mp h with h3 | h3
        · left; exact h3
        · right; simp [h3]
      · rw [if_neg h2] at h
        rcases List.mem_cons.mp h with h3 | h3
        · right; simp [h3]
        · rcases ih h3 with h4 | h4
          · left; exact h4
          · right; simp [h4]

theorem rawInsert_perm (p : Bytes × Bytes) (m : List (Bytes × Bytes))
    (h : ∀ q ∈ m, writeBytesItem p.1 ≠ writeBytesItem q.1) :
    (rawInsert p m).Perm (p :: m) := by
  induction m with
  | nil => exact List.Perm.refl _
  | cons q t ih =>
    simp only [rawInsert]
    by_cases h1 : lexLt (writeBytesItem p.1) (writeBytesItem q.1) = true
    · rw [if_pos h1]
    · rw [if_neg h1]
      have h2 : (writeBytesItem p.1 == writeBytesItem q.1) = false := by
        simp only [beq_eq_false_iff_ne, ne_eq]
        exact h q (by simp)
      rw [h2]
      simp only [Bool.false_eq_true, if_false]
      have hp := ih (fun q hq => h q (by simp [hq]))
      exact (hp.cons q).trans (List.Perm.swap p q t)

theorem rawFold_perm :
    ∀ (ps m : List (Bytes × Bytes)),
    ((ps ++ m).map fun p => writeBytesItem p.1).Nodup →
    (ps.foldl (fun acc p => rawInsert p acc) m).Perm (ps ++ m)
  | [], m, _ => by simp
  | p :: t, m, hnd => by
    simp only [List.foldl_cons]
    have hmkeys : ∀ q ∈ m, writeBytesItem p.1 ≠ writeBytesItem q.1 := by
      intro q hq he
      have h1 : writeBytesItem p.1 ∈ (t ++ m).map fun p => writeBytesItem p.1 := by
        rw [he]
        exact List.mem_map_of_mem _ (by simp [hq])
      exact (List.nodup_cons.mp (by simpa using hnd)).1 h1
    have h1 : (rawInsert p m).Perm (p :: m) := rawInsert_perm p m hmkeys
    have hbig : (t ++ rawInsert p m).Perm ((p :: t) ++ m) := by
      have s1 : (t ++ rawInsert p m).Perm (t ++ p :: m) := List.Perm.append_left t h1
      have s2 : (t ++ p :: m).Perm (p :: (t ++ m)) := List.perm_middle
      exact s1.trans s2
    have hnd2 : ((t ++ rawInsert p m).map fun p => writeBytesItem p.1).Nodup :=
      ((hbig.map fun p => writeBytesItem p.1).nodup_iff).mpr hnd
    exact (rawFold_perm t (rawInsert p m) hnd2).trans hbig

theorem btreeInsert_wrap (p : Bytes × Bytes) (m : List (Bytes × Bytes)) :
    btreeInsert (writeBytesItem p.1) (writeBytesItem p.2) (m.map wrapPair) =
      (rawInsert p m).map wrapPair := by
  induction m with
  | nil => rfl
  | cons q t ih =>
    simp only [List.map_cons, btreeInsert, rawInsert, wrapPair]
    by_cases h1 : lexLt (writeBytesItem p.1) (writeBytesItem q.1) = true
    · simp [h1, wrapPair]
    · rw [if_neg h1, if_neg h1]
      by_cases h2 : (writeBytesItem p.1 == writeBytesItem q.1) = true
      · simp [h2, wrapPair]
      · rw [if_neg h2, if_neg h2]
        simp only [List.map_cons, wrapPair] at ih ⊢
        rw [ih]

theorem encodeHeadersMap_eq_raw (r : Response) :
    encodeHeadersMap r =
      (rawHeaderSort ((strBytes ":status", statusBytes r.status) :: r.headers)).map wrapPair := by
  have key : ∀ (l m : List (Bytes × Bytes)),
      (l.map wrapPair).foldl (fun acc p => btreeInsert p.1 p.2 acc) (m.map wrapPair) =
        (l.foldl (fun acc p => rawInsert p acc) m).map wrapPair := by
    intro l
    induction l with
    | nil => intro m; simp
    | cons p t ih =>
      intro m
      simp only [List.map_cons, List.foldl_cons]
      have hw : btreeInsert (wrapPair p).1 (wrapPair p).2 (m.map wrapPair) =
          (rawInsert p m).map wrapPair := btreeInsert_wrap p m
      rw [hw]
      exact ih (rawInsert p m)
  have base := key ((strBytes ":status", statusBytes r.status) :: r.headers) []
  simpa [encodeHeadersMap, rawHeaderSort] using base

/-! ## Helper facts for header decoding -/

theorem utf8Fold_ascii : ∀ (l : Bytes) (x y : Nat), (∀ b ∈ l, b < 128) →
    ∃ x2 y2, l.foldl utf8Step (some (0, x, y)) = some (0, x2, y2)
  | [], x, y, _ => ⟨x, y, rfl⟩
  | b :: t, x, y, h => by
    have hb : b < 128 := h b (by simp)
    simp only [List.foldl_cons, utf8Step]
    rw [if_pos (show b < 0x80 by omega)]
    exact utf8Fold_ascii t 0 0 fun c hc => h c (by simp [hc])

theorem validUtf8_of_ascii (l : Bytes) (h : ∀ b ∈ l, b < 128) : validUtf8 l = true := by
  obtain ⟨x2, y2, hf⟩ := utf8Fold_ascii l 0 0 h
  unfold validUtf8
  rw [hf]

theorem parseStatus_statusBytes {s : Nat} (h1 : 100 ≤ s) (h2 : s ≤ 999) :
    parseStatus (statusBytes s) = some s := by
  have hc : 49 ≤ 48 + s / 100 ∧ 48 + s / 100 ≤ 57 ∧ 48 ≤ 48 + s / 10 % 10 ∧
      48 + s / 10 % 10 ≤ 57 ∧ 48 ≤ 48 + s % 10 ∧ 48 + s % 10 ≤ 57 := by omega
  simp only [statusBytes, parseStatus]
  rw [if_pos hc]
  congr 1
  omega

theorem headerInsert_fresh (n v : Bytes) : ∀ (hs : List (Bytes × Bytes)),
    n ∉ hs.map Prod.fst → headerInsert n v hs = hs ++ [(n, v)]
  | [], _ => rfl
  | q :: t, h => by
    simp only [List.map_cons, List.mem_cons, not_or] at h
    obtain ⟨q1, q2⟩ := q
    simp only [headerInsert, if_neg h.1]
    rw [headerInsert_fresh n v t h.2]
    rfl

theorem procPairs_append_regular :
    ∀ (xs rest : List (Bytes × Bytes)) (st : Option Nat) (hd : List (Bytes × Bytes)),
    (∀ p ∈ xs, ¬p.1.head? = some 58 ∧ validLowerHeaderName p.1 = true ∧
      p.2.all validHeaderValueByte = true) →
    ((hd ++ xs).map Prod.fst).Nodup →
    procPairs (xs ++ rest) st hd = procPairs rest st (hd ++ xs)
  | [], rest, st, hd, _, _ => by simp
  | p :: xs, rest, st, hd, hreg, hnd => by
    have hp := hreg p (by simp)
    have hnd' := hnd
    rw [List.map_append] at hnd'
    rw [List.nodup_append] at hnd'
    have hfresh : p.1 ∉ hd.map Prod.fst := fun hmem => hnd'.2.2 hmem (by simp)
    simp only [List.cons_append, procPairs]
    rw [if_neg hp.1, if_pos hp.2.1, if_pos hp.2.2]
    rw [headerInsert_fresh p.1 p.2 hd hfresh]
    have hnd2 : (((hd ++ [p]) ++ xs).map Prod.fst).Nodup := by
      rw [List.append_assoc]
      simpa using hnd
    rw [show (hd ++ [(p.1, p.2)]) = hd ++ [p] from by simp]
    show procPairs (xs ++ rest) st (hd ++ [p]) = procPairs rest st (hd ++ p :: xs)
    rw [procPairs_append_regular xs rest st (hd ++ [p]) (fun q hq => hreg q (by simp [hq])) hnd2]
    simp [List.append_assoc]

/-! ## Monadic reduction helpers -/

@[simp] theorem ok_bind {ε α β : Type} (a : α) (f : α → Except ε β) :
    (Except.ok a : Except ε α) >>= f = f a := rfl

@[simp] theorem error_bind {ε α β : Type} (e : ε) (f : α → Except ε β) :
    (Except.error e : Except ε α) >>= f = .error e := rfl

@[simp] theorem throw_eq {ε α : Type} (e : ε) : (throw e : Except ε α) = .error e := rfl

@[simp] theorem pure_eq_ok {ε α : Type} (a : α) : (pure a : Except ε α) = .ok a := rfl

/-! ## Header map round trip -/

theorem readHeadersLoop_stream :
    ∀ (rs : List (Bytes × Bytes)) (buf : Bytes) (pos : Nat) (tail : Bytes)
      (st0 : Option Nat) (acc : List (Bytes × Bytes)),
    pos ≤ buf.length →
    buf.drop pos = ((rs.map fun p => writeBytesItem p.1 ++ writeBytesItem p.2).flatten ++ tail) →
    (∀ p ∈ rs, validUtf8 p.1 = true ∧ validUtf8 p.2 = true ∧ p.1.length < 2 ^ 64 ∧
      p.2.length < 2 ^ 64) →
    readHeadersLoop rs.length ⟨buf, pos⟩ st0 acc = procPairs rs st0 acc
  | [], buf, pos, tail, st0, acc, _, _, _ => rfl
  | p :: rs, buf, pos, tail, st0, acc, hpos, hrem, hwf => by
    obtain ⟨hu1, hu2, hl1, hl2⟩ := hwf p (by simp)
    have hrem1 : buf.drop pos = writeBytesItem p.1 ++ (writeBytesItem p.2 ++
        ((rs.map fun p => writeBytesItem p.1 ++ writeBytesItem p.2).flatten ++ tail)) := by
      simpa [List.append_assoc] using hrem
    have hb1 := dBytes_ok hpos hl1 hrem1
    have hpos1 : pos + (writeBytesItem p.1).length ≤ buf.length := (pos_advance_le hpos hrem1).1
    have hrem2 : buf.drop (pos + (writeBytesItem p.1).length) = writeBytesItem p.2 ++
        ((rs.map fun p => writeBytesItem p.1 ++ writeBytesItem p.2).flatten ++ tail) :=
      drop_advance hrem1
    have hb2 := dBytes_ok hpos1 hl2 hrem2
    have hpos2 := (pos_advance_le hpos1 hrem2).1
    have hrem3 := drop_advance hrem2
    have hrec := fun st acc2 =>
      readHeadersLoop_stream rs buf
        (pos + (writeBytesItem p.1).length + (writeBytesItem p.2).length) tail st acc2
        hpos2 hrem3 (fun q hq => hwf q (by simp [hq]))
    simp only [List.length_cons, readHeadersLoop, hb1, ok_bind, hu1, if_true, hb2, hu2,
      procPairs]
    by_cases hps : p.1.head? = some 58
    · rw [if_pos hps, if_pos hps]
      by_cases hst : p.1 = strBytes ":status"
      · rw [if_pos hst, if_pos hst]
        cases st0 with
        | some v => rfl
        | none =>
          cases hparse : parseStatus p.2 with
          | some v => exact hrec (some v) acc
          | none => rfl
      · rw [if_neg hst, if_neg hst]
        rfl
    · rw [if_neg hps, if_neg hps]
      by_cases hvn : validLowerHeaderName p.1 = true
      · rw [if_pos hvn, if_pos hvn]
        by_cases hvv : p.2.all validHeaderValueByte = true
        · rw [if_pos hvv, if_pos hvv]
          exact hrec st0 (headerInsert p.1 p.2 acc)
        · rw [if_neg hvv, if_neg hvv]
          rfl
      · rw [if_neg hvn, if_neg hvn]
        rfl

theorem isLowerHeaderByte_lt128 {b : Nat} (h : isLowerHeaderByte b = true) : b < 128 := by
  simp only [isLowerHeaderByte, Bool.or_eq_true, Bool.and_eq_true, beq_iff_eq,
    decide_eq_true_eq] at h
  omega

theorem isLowerHeaderByte_ne58 {b : Nat} (h : isLowerHeaderByte b = true) : b ≠ 58 := by
  simp only [isLowerHeaderByte, Bool.or_eq_true, Bool.and_eq_true, beq_iff_eq,
    decide_eq_true_eq] at h
  omega

theorem validLower_ascii {n : Bytes} (h : validLowerHeaderName n = true) : ∀ b ∈ n, b < 128 := by
  intro b hb
  have h2 : n.all isLowerHeaderByte = true := by
    simp only [validLowerHeaderName, Bool.and_eq_true] at h
    exact h.2
  exact isLowerHeaderByte_lt128 (List.all_eq_true.mp h2 b hb)

theorem validLower_head_ne58 {n : Bytes} (h : validLowerHeaderName n = true) :
    ¬n.head? = some 58 := by
  intro hh
  cases n with
  | nil => simp at hh
  | cons b t =>
    have hb : b = 58 := by simpa using hh
    have h2 : (b :: t).all isLowerHeaderByte = true := by
      simp only [validLowerHeaderName, Bool.and_eq_true] at h
      exact h.2
    exact isLowerHeaderByte_ne58 (List.all_eq_true.mp h2 b (by simp)) hb

theorem validLower_ne_statusKey {n : Bytes} (h : validLowerHeaderName n = true) :
    n ≠ strBytes ":status" := by
  intro he
  exact validLower_head_ne58 h (by rw [he]; rfl)

theorem visible_lt128 {b : Nat} (h : isVisibleAsciiByte b = true) : b < 128 := by
  simp only [isVisibleAsciiByte, Bool.or_eq_true, Bool.and_eq_true, beq_iff_eq,
    decide_eq_true_eq] at h
  omega

theorem visible_validValue {b : Nat} (h : isVisibleAsciiByte b = true) :
    validHeaderValueByte b = true := by
  simp only [isVisibleAsciiByte, Bool.or_eq_true, Bool.and_eq_true, beq_iff_eq,
    decide_eq_true_eq] at h
  simp only [validHeaderValueByte, Bool.or_eq_true, Bool.and_eq_true, beq_iff_eq,
    decide_eq_true_eq, bne_iff_ne, ne_eq]
  omega

theorem statusBytes_ascii {s : Nat} (h2 : s ≤ 999) : ∀ b ∈ statusBytes s, b < 128 := by
  intro b hb
  simp only [statusBytes, List.mem_cons, List.mem_singleton, List.not_mem_nil, or_false] at hb
  rcases hb with h | h | h <;> omega

theorem statusBytes_length (s : Nat) : (statusBytes s).length = 3 := rfl

theorem statusKey_head : (strBytes ":status").head? = some 58 := rfl

theorem statusKey_utf8 : validUtf8 (strBytes ":status") = true := by decide

theorem read_headers_cbor_roundtrip (r : Response) (hwf : WfResponse r) :
    read_headers_cbor ⟨encode_headers r, 0⟩ = .ok (r.status, decodedHeaders r) := by
  obtain ⟨hs100, hs999, hbody, hhl, hcnt, hnodup, hpairs⟩ := hwf
  have hname58 : ∀ p ∈ r.headers, ¬p.1.head? = some 58 := fun p hp =>
    validLower_head_ne58 (hpairs p hp).1
  have hnameNe : ∀ p ∈ r.headers, p.1 ≠ strBytes ":status" := fun p hp =>
    validLower_ne_statusKey (hpairs p hp).1
  have hspNotMem : (strBytes ":status", statusBytes r.status) ∉ r.headers := fun hmem =>
    hnameNe _ hmem rfl
  have hlen1 : ∀ p ∈ (strBytes ":status", statusBytes r.status) :: r.headers,
      p.1.length < 2 ^ 64 := by
    intro p hp
    rcases List.mem_cons.mp hp with h | h
    · rw [h]
      show (strBytes ":status").length < 2 ^ 64
      decide
    · exact (hpairs p h).2.1
  have hnamesNodup : (((strBytes ":status", statusBytes r.status) :: r.headers).map
      Prod.fst).Nodup := by
    simp only [List.map_cons, List.nodup_cons]
    refine ⟨?_, hnodup⟩
    intro hmem
    obtain ⟨p, hp, hpe⟩ := List.mem_map.mp hmem
    exact hnameNe p hp hpe
  have hkeysNodup : (((strBytes ":status", statusBytes r.status) :: r.headers).map
      fun p => writeBytesItem p.1).Nodup := by
    have h1 : ((((strBytes ":status", statusBytes r.status) :: r.headers).map Prod.fst).map
        writeBytesItem).Nodup := by
      refine List.Nodup.map_on ?_ hnamesNodup
      intro x hx y hy he
      obtain ⟨p, hp, hpe⟩ := List.mem_map.mp hx
      obtain ⟨q, hq, hqe⟩ := List.mem_map.mp hy
      exact writeBytesItem_inj (hpe ▸ hlen1 p hp) (hqe ▸ hlen1 q hq) he
    simpa [List.map_map] using h1
  have hperm : (rawHeaderSort ((strBytes ":status", statusBytes r.status) :: r.headers)).Perm
      ((strBytes ":status", statusBytes r.status) :: r.headers) := by
    have h1 := rawFold_perm ((strBytes ":status", statusBytes r.status) :: r.headers) []
      (by simpa using hkeysNodup)
    simpa [rawHeaderSort] using h1
  have hspMem : (strBytes ":status", statusBytes r.status) ∈
      rawHeaderSort ((strBytes ":status", statusBytes r.status) :: r.headers) :=
    hperm.mem_iff.mpr (by simp)
  obtain ⟨xs, ys, hsplit⟩ := List.append_of_mem hspMem
  have hnodupAll : ((rawHeaderSort ((strBytes ":status", statusBytes r.status) ::
      r.headers)).map Prod.fst).Nodup := (hperm.map Prod.fst).nodup_iff.mpr hnamesNodup
  have hmapsplit : ((rawHeaderSort ((strBytes ":status", statusBytes r.status) ::
      r.headers)).map Prod.fst) =
      xs.map Prod.fst ++ strBytes ":status" :: ys.map Prod.fst := by
    rw [hsplit]
    simp
  have hnd2 := hnodupAll
  rw [hmapsplit, List.nodup_append] at hnd2
  have hstatus_not_xs : strBytes ":status" ∉ xs.map Prod.fst := fun hmem =>
    hnd2.2.2 hmem (by simp)
  have hstatus_not_ys : strBytes ":status" ∉ ys.map Prod.fst :=
    (List.nodup_cons.mp hnd2.2.1).1
  have hxs_sub : ∀ q ∈ xs, q ∈ r.headers := by
    intro q hq
    have hqmem : q ∈ rawHeaderSort ((strBytes ":status", statusBytes r.status) :: r.headers) := by
      rw [hsplit]
      simp [hq]
    rcases List.mem_cons.mp (hperm.mem_iff.mp hqmem) with h | h
    · exfalso
      apply hstatus_not_xs
      have hq1 : q.1 = strBytes ":status" := by rw [h]
      rw [← hq1]
      exact List.mem_map_of_mem _ hq
    · exact h
  have hys_sub : ∀ q ∈ ys, q ∈ r.headers := by
    intro q hq
    have hqmem : q ∈ rawHeaderSort ((strBytes ":status", statusBytes r.status) :: r.headers) := by
      rw [hsplit]
      simp [hq]
    rcases List.mem_cons.mp (hperm.mem_iff.mp hqmem) with h | h
    · exfalso
      apply hstatus_not_ys
      have hq1 : q.1 = strBytes ":status" := by rw [h]
      rw [← hq1]
      exact List.mem_map_of_mem _ hq
    · exact h
  have hstream : ∀ p ∈ rawHeaderSort ((strBytes ":status", statusBytes r.status) :: r.headers),
      validUtf8 p.1 = true ∧ validUtf8 p.2 = true ∧ p.1.length < 2 ^ 64 ∧
      p.2.length < 2 ^ 64 := by
    intro p hp
    rcases List.mem_cons.mp (hperm.mem_iff.mp hp) with h | h
    · rw [h]
      refine ⟨statusKey_utf8, validUtf8_of_ascii _ (statusBytes_ascii hs999), ?_, ?_⟩
      · show (strBytes ":status").length < 2 ^ 64
        decide
      · show (statusBytes r.status).length < 2 ^ 64
        rw [statusBytes_length]
        norm_num
    · obtain ⟨hn, hnl, hvl, hvv⟩ := hpairs p h
      refine ⟨validUtf8_of_ascii _ (validLower_ascii hn), ?_, hnl, hvl⟩
      exact validUtf8_of_ascii _ fun b hb => visible_lt128 (List.all_eq_true.mp hvv b hb)
  have hlenAll : (rawHeaderSort ((strBytes ":status", statusBytes r.status) ::
      r.headers)).length = r.headers.length + 1 := by
    rw [hperm.length_eq]
    simp
  have hshape : encode_headers r = cborHeader 5 (rawHeaderSort ((strBytes ":status",
      statusBytes r.status) :: r.headers)).length ++
      (((rawHeaderSort ((strBytes ":status", statusBytes r.status) :: r.headers)).map
        fun p => writeBytesItem p.1 ++ writeBytesItem p.2).flatten) := by
    rw [encode_headers, encodeHeadersMap_eq_raw]
    simp [List.map_map, wrapPair, Function.comp_def]
  have hn64 : (rawHeaderSort ((strBytes ":status", statusBytes r.status) ::
      r.headers)).length < 2 ^ 64 := by
    rw [hlenAll]
    exact hcnt
  have hbuf : (encode_headers r).drop 0 = cborHeader 5 (rawHeaderSort ((strBytes ":status",
      statusBytes r.status) :: r.headers)).length ++
      ((((rawHeaderSort ((strBytes ":status", statusBytes r.status) :: r.headers)).map
        fun p => writeBytesItem p.1 ++ writeBytesItem p.2).flatten) ++ []) := by
    simpa using hshape
  have hml := dMapLen_ok (by simp) hn64 hbuf
  have hpos1 := (pos_advance_le (by simp) hbuf).1
  have hloop := readHeadersLoop_stream
    (rawHeaderSort ((strBytes ":status", statusBytes r.status) :: r.headers))
    (encode_headers r)
    (0 + (cborHeader 5 (rawHeaderSort ((strBytes ":status", statusBytes r.status) ::
      r.headers)).length).length)
    [] none [] hpos1 (drop_advance hbuf) hstream
  have hreg : ∀ q ∈ r.headers, ¬q.1.head? = some 58 ∧ validLowerHeaderName q.1 = true ∧
      q.2.all validHeaderValueByte = true := by
    intro q hq
    obtain ⟨hn, hl1q, hl2q, hvv⟩ := hpairs q hq
    refine ⟨hname58 q hq, hn, ?_⟩
    exact List.all_eq_true.mpr fun b hb => visible_validValue (List.all_eq_true.mp hvv b hb)
  have hxs_nodup : ((([] : List (Bytes × Bytes)) ++ xs).map Prod.fst).Nodup := by
    simp only [List.nil_append]
    have hsub : (xs.map Prod.fst).Sublist ((rawHeaderSort ((strBytes ":status",
        statusBytes r.status) :: r.headers)).map Prod.fst) := by
      rw [hmapsplit]
      exact List.sublist_append_left _ _
    exact hsub.nodup hnodupAll
  have hproc1 : procPairs (xs ++ (strBytes ":status", statusBytes r.status) :: ys) none [] =
      procPairs ((strBytes ":status", statusBytes r.status) :: ys) none xs := by
    have h1 := procPairs_append_regular xs ((strBytes ":status", statusBytes r.status) :: ys)
      none [] (fun q hq => hreg q (hxs_sub q hq)) hxs_nodup
    simpa using h1
  have hproc2 : procPairs ((strBytes ":status", statusBytes r.status) :: ys) none xs =
      procPairs ys (some r.status) xs := by
    simp [procPairs, statusKey_head, parseStatus_statusBytes hs100 hs999]
  have hysxs_nodup : (((xs : List (Bytes × Bytes)) ++ ys).map Prod.fst).Nodup := by
    have hsub : ((xs ++ ys).map Prod.fst).Sublist ((rawHeaderSort ((strBytes ":status",
        statusBytes r.status) :: r.headers)).map Prod.fst) := by
      rw [hmapsplit, List.map_append]
      exact List.Sublist.append_left (List.sublist_cons_self _ _) _
    exact hsub.nodup hnodupAll
  have hproc3 : procPairs ys (some r.status) xs = .ok (some r.status, xs ++ ys) := by
    have h1 := procPairs_append_regular ys [] (some r.status) xs
      (fun q hq => hreg q (hys_sub q hq)) hysxs_nodup
    rw [List.append_nil] at h1
    rw [h1]
    rfl
  have hfilter : decodedHeaders r = xs ++ ys := by
    rw [decodedHeaders, hsplit, List.filter_append, List.filter_cons]
    have hspf : (!((strBytes ":status", statusBytes r.status).1.head? == some 58)) = false := by
      rw [show ((strBytes ":status", statusBytes r.status) :
        Bytes × Bytes).1.head? = some 58 from statusKey_head]
      simp
    rw [hspf]
    have hxs_f : xs.filter (fun p => !(p.1.head? == some 58)) = xs := by
      rw [List.filter_eq_self]
      intro p hp
      have hne := hname58 p (hxs_sub p hp)
      simp [hne]
    have hys_f : ys.filter (fun p => !(p.1.head? == some 58)) = ys := by
      rw [List.filter_eq_self]
      intro p hp
      have hne := hname58 p (hys_sub p hp)
      simp [hne]
    rw [hxs_f, hys_f]
    simp
  simp only [read_headers_cbor, hml, ok_bind]
  rw [hloop]
  rw [show procPairs (rawHeaderSort ((strBytes ":status", statusBytes r.status) ::
      r.headers)) none [] = .ok (some r.status, xs ++ ys) from by
    rw [hsplit, hproc1, hproc2, hproc3]]
  rw [hfilter]
  rfl

/-! ## Responses section round trip -/

theorem read_response_entry (r : Response) (hwf : WfResponse r) (tail : Bytes) :
    read_response ⟨responseEntryBytes r ++ tail, 0⟩ = .ok (decodedResponse r) := by
  have hhl : (encode_headers r).length < 2 ^ 64 := hwf.2.2.2.1
  have hbl : r.body.length < 2 ^ 64 := hwf.2.2.1
  have hrem0 : (responseEntryBytes r ++ tail).drop 0 = cborHeader 4 2 ++
      (writeBytesItem (encode_headers r) ++ (writeBytesItem r.body ++ tail)) := by
    simp [responseEntryBytes, List.append_assoc]
  have hal := read_array_len_ok (by simp) (by norm_num) hrem0
  have hpos1 := (pos_advance_le (by simp) hrem0).1
  have hrem1 := drop_advance hrem0
  have hb1 := dBytes_ok hpos1 hhl hrem1
  have hpos2 := (pos_advance_le hpos1 hrem1).1
  have hrem2 := drop_advance hrem1
  have hb2 := dBytes_ok hpos2 hbl hrem2
  simp only [read_response, hal, ok_bind, if_pos, hb1,
    read_headers_cbor_roundtrip r hwf, hb2]
  rfl

theorem encodeResponsesLoop_eq :
    ∀ (exs : List Exchange) (count : Nat),
    encodeResponsesLoop exs count =
      ((exs.map fun e => responseEntryBytes e.response).flatten, locsFrom exs count)
  | [], _ => rfl
  | e :: t, count => by
    simp only [encodeResponsesLoop, encodeResponsesLoop_eq t, List.map_cons, List.flatten_cons,
      locsFrom]

theorem encode_response_section_eq (exs : List Exchange) :
    encode_response_section exs =
      (cborHeader 4 exs.length ++ (exs.map fun e => responseEntryBytes e.response).flatten,
        locsFrom exs (cborHeader 4 exs.length).length) := by
  simp [encode_response_section, encodeResponsesLoop_eq]

theorem locsFrom_bounds :
    ∀ (exs : List Exchange) (count : Nat), ∀ loc ∈ locsFrom exs count,
    count ≤ loc.offset ∧
      loc.offset + loc.length ≤ count + (exs.map fun e => responseEntryBytes e.response).flatten.length
  | [], _, loc, h => by simp [locsFrom] at h
  | e :: t, count, loc, h => by
    simp only [locsFrom, List.mem_cons] at h
    rcases h with h | h
    · rw [h]
      simp only [List.map_cons, List.flatten_cons, List.length_append]
      omega
    · have h2 := locsFrom_bounds t (count + (responseEntryBytes e.response).length) loc h
      simp only [List.map_cons, List.flatten_cons, List.length_append]
      omega

theorem locsFrom_urls : ∀ (exs : List Exchange) (count : Nat),
    (locsFrom exs count).map (fun loc => loc.url) = exs.map fun e => e.url
  | [], _ => rfl
  | e :: t, count => by
    simp only [locsFrom, List.map_cons, locsFrom_urls t]

theorem read_responses_layout :
    ∀ (exs : List Exchange) (buf : Bytes) (pos0 : Nat) (respOff count : Nat) (tail : Bytes),
    respOff + count ≤ buf.length →
    buf.drop (respOff + count) = (exs.map fun e => responseEntryBytes e.response).flatten ++ tail →
    (∀ e ∈ exs, WfResponse e.response) →
    read_responses ⟨buf, pos0⟩
      ((locsFrom exs count).map fun loc =>
        (⟨loc.url, respOff + loc.offset, loc.length⟩ : RequestEntry)) =
      .ok (exs.map fun e => ⟨e.url, decodedResponse e.response⟩)
  | [], buf, pos0, respOff, count, tail, _, _, _ => rfl
  | e :: t, buf, pos0, respOff, count, tail, hle, hrem, hwf => by
    have hrem1 : buf.drop (respOff + count) = responseEntryBytes e.response ++
        ((t.map fun e => responseEntryBytes e.response).flatten ++ tail) := by
      simpa [List.append_assoc] using hrem
    have hlen : respOff + count + (responseEntryBytes e.response).length ≤ buf.length :=
      (pos_advance_le hle hrem1).1
    have hsub : new_decoder_from_range ⟨buf, pos0⟩ (respOff + count)
        (respOff + count + (responseEntryBytes e.response).length) =
        .ok ⟨responseEntryBytes e.response, 0⟩ := by
      unfold new_decoder_from_range
      rw [if_pos ⟨by omega, hlen⟩]
      have htake : ((buf.drop (respOff + count)).take
          (respOff + count + (responseEntryBytes e.response).length - (respOff + count))) =
          responseEntryBytes e.response := by
        rw [hrem1]
        simp [List.take_left]
      simp only [htake]
    have hrec := read_responses_layout t buf pos0 respOff
      (count + (responseEntryBytes e.response).length) tail (by omega)
      (by rw [show respOff + (count + (responseEntryBytes e.response).length) =
            respOff + count + (responseEntryBytes e.response).length by omega]
          exact drop_advance hrem1)
      (fun x hx => hwf x (by simp [hx]))
    have hentry : read_response ⟨responseEntryBytes e.response, 0⟩ =
        .ok (decodedResponse e.response) := by
      have h1 := read_response_entry e.response (hwf e (by simp)) []
      simpa using h1
    simp only [locsFrom, List.map_cons, read_responses, hsub, ok_bind, hentry, hrec]
    rfl

/-! ## Index section round trip -/

theorem readIndexLoop_stream :
    ∀ (locs : List ResponseLocation) (buf : Bytes) (pos : Nat) (tail : Bytes)
      (respOff : Nat) (acc : List RequestEntry),
    pos ≤ buf.length →
    buf.drop pos = (locs.map fun loc =>
      indexKey loc.url ++ indexValue loc.offset loc.length).flatten ++ tail →
    (∀ loc ∈ locs, validUtf8 loc.url = true ∧ loc.url.length < 2 ^ 64 ∧
      loc.offset < 2 ^ 64 ∧ loc.length < 2 ^ 64) →
    readIndexLoop locs.length ⟨buf, pos⟩ respOff acc =
      .ok (acc.reverse ++ locs.map fun loc => ⟨loc.url, respOff + loc.offset, loc.length⟩)
  | [], buf, pos, tail, respOff, acc, _, _, _ => by simp [readIndexLoop]
  | loc :: t, buf, pos, tail, respOff, acc, hpos, hrem, hwf => by
    obtain ⟨hu, hul, ho, hl⟩ := hwf loc (by simp)
    have hrem1 : buf.drop pos = writeTextItem loc.url ++ (cborHeader 4 2 ++
        (writeUInt loc.offset ++ (writeUInt loc.length ++
          ((t.map fun loc => indexKey loc.url ++ indexValue loc.offset loc.length).flatten ++
            tail)))) := by
      simpa [indexKey, indexValue, List.append_assoc] using hrem
    have ht := dText_ok hpos hul hu hrem1
    have hpos1 := (pos_advance_le hpos hrem1).1
    have hrem2 := drop_advance hrem1
    have hal := read_array_len_ok hpos1 (by norm_num) hrem2
    have hpos2 := (pos_advance_le hpos1 hrem2).1
    have hrem3 := drop_advance hrem2
    have ho1 := dUInt_ok hpos2 ho hrem3
    have hpos3 := (pos_advance_le hpos2 hrem3).1
    have hrem4 := drop_advance hrem3
    have hl1 := dUInt_ok hpos3 hl hrem4
    have hpos4 := (pos_advance_le hpos3 hrem4).1
    have hrem5 := drop_advance hrem4
    have hrec := readIndexLoop_stream t buf
      (pos + (writeTextItem loc.url).length + (cborHeader 4 2).length +
        (writeUInt loc.offset).length + (writeUInt loc.length).length) tail respOff
      (⟨loc.url, respOff + loc.offset, loc.length⟩ :: acc) hpos4 hrem5
      (fun x hx => hwf x (by simp [hx]))
    simp only [List.length_cons, readIndexLoop, ht, ok_bind, hal, if_pos, ho1, hl1, hrec]
    simp [List.append_assoc]

theorem read_index_of_encode (locs : List ResponseLocation) (respOff : Nat) (tail : Bytes)
    (hsorted : locs.Pairwise fun a b => lexLt (indexKey a.url) (indexKey b.url) = true)
    (hwf : ∀ loc ∈ locs, validUtf8 loc.url = true ∧ loc.url.length < 2 ^ 64 ∧
      loc.offset < 2 ^ 64 ∧ loc.length < 2 ^ 64)
    (hn : locs.length < 2 ^ 64) :
    read_index ⟨encode_index_section locs ++ tail, 0⟩ respOff =
      .ok (locs.map fun loc => ⟨loc.url, respOff + loc.offset, loc.length⟩) := by
  have hmap : indexMap locs =
      locs.map fun loc => (indexKey loc.url, indexValue loc.offset loc.length) := by
    have h1 := btreeFold_sorted_append (fun loc => indexKey loc.url)
      (fun loc => indexValue loc.offset loc.length) locs [] (by simp) hsorted
    simpa [indexMap] using h1
  have hshape : (encode_index_section locs ++ tail).drop 0 = cborHeader 5 locs.length ++
      ((locs.map fun loc => indexKey loc.url ++ indexValue loc.offset loc.length).flatten ++
        tail) := by
    rw [List.drop_zero, encode_index_section, hmap]
    simp [List.map_map, List.append_assoc, Function.comp_def]
  have hml := dMapLen_ok (by simp) hn hshape
  have hpos1 := (pos_advance_le (by simp) hshape).1
  have hloop := readIndexLoop_stream locs (encode_index_section locs ++ tail)
    (0 + (cborHeader 5 locs.length).length) tail respOff [] hpos1 (drop_advance hshape) hwf
  simp only [read_index, hml, ok_bind, hloop]
  rfl

/-! ## Section table round trip -/

theorem readSectionOffsetsLoop_stream :
    ∀ (secs : List BundleSection) (buf : Bytes) (pos : Nat) (tail : Bytes)
      (base : Nat) (seen : List Bytes) (acc : List SectionOffset),
    pos ≤ buf.length →
    buf.drop pos =
      (secs.map fun s => writeTextItem s.name ++ writeUInt s.bytes.length).flatten ++ tail →
    (∀ s ∈ secs, validUtf8 s.name = true ∧ s.name.length < 2 ^ 64 ∧ s.bytes.length < 2 ^ 64) →
    (∀ s ∈ secs, s.name ∉ seen) →
    (secs.map fun s => s.name).Nodup →
    readSectionOffsetsLoop secs.length ⟨buf, pos⟩ base seen acc =
      .ok (acc.reverse ++ offsetsOf secs base)
  | [], buf, pos, tail, base, seen, acc, _, _, _, _, _ => by
    simp [readSectionOffsetsLoop, offsetsOf]
  | s :: t, buf, pos, tail, base, seen, acc, hpos, hrem, hwf, hseen, hnd => by
    obtain ⟨hu, hnl, hbl⟩ := hwf s (by simp)
    have hrem1 : buf.drop pos = writeTextItem s.name ++ (writeUInt s.bytes.length ++
        ((t.map fun s => writeTextItem s.name ++ writeUInt s.bytes.length).flatten ++ tail)) := by
      simpa [List.append_assoc] using hrem
    have ht := dText_ok hpos hnl hu hrem1
    have hpos1 := (pos_advance_le hpos hrem1).1
    have hrem2 := drop_advance hrem1
    have hui := dUInt_ok hpos1 hbl hrem2
    have hpos2 := (pos_advance_le hpos1 hrem2).1
    have hrem3 := drop_advance hrem2
    have hcont : seen.contains s.name = false := by
      have := hseen s (by simp)
      simpa using this
    have hnd1 : s.name ∉ t.map (fun s => s.name) ∧ (t.map fun s => s.name).Nodup := by
      rw [List.map_cons, List.nodup_cons] at hnd
      exact hnd
    have hseen2 : ∀ x ∈ t, x.name ∉ s.name :: seen := by
      intro x hx
      simp only [List.mem_cons, not_or]
      constructor
      · intro he
        exact hnd1.1 (he ▸ List.mem_map_of_mem (fun s => s.name) hx)
      · exact hseen x (by simp [hx])
    have hrec := readSectionOffsetsLoop_stream t buf
      (pos + (writeTextItem s.name).length + (writeUInt s.bytes.length).length) tail
      (base + s.bytes.length) (s.name :: seen) (⟨s.name, base, s.bytes.length⟩ :: acc)
      hpos2 hrem3 (fun x hx => hwf x (by simp [hx])) hseen2 hnd1.2
    simp only [List.length_cons, readSectionOffsetsLoop, ht, ok_bind, hcont, hui, hrec]
    simp [offsetsOf, List.append_assoc]

theorem offsetsOf_getLast_name :
    ∀ (secs : List BundleSection) (base : Nat),
    ((offsetsOf secs base).getLast?).map (fun so => so.name) =
      (secs.getLast?).map fun s => s.name
  | [], _ => rfl
  | [s], _ => rfl
  | s :: s2 :: t, base => by
    rw [offsetsOf, offsetsOf]
    rw [List.getLast?_cons_cons, List.getLast?_cons_cons]
    exact offsetsOf_getLast_name (s2 :: t) (base + s.bytes.length)

theorem read_section_offsets_cbor_of (secs : List BundleSection) (offset0 : Nat)
    (h2K : secs.length * 2 < 2 ^ 64)
    (hwf : ∀ s ∈ secs, validUtf8 s.name = true ∧ s.name.length < 2 ^ 64 ∧
      s.bytes.length < 2 ^ 64)
    (hnd : (secs.map fun s => s.name).Nodup)
    (hlast : (secs.getLast?).map (fun s => s.name) = some (strBytes "responses")) :
    read_section_offsets_cbor ⟨encode_section_lengths secs, 0⟩ offset0 =
      .ok (offsetsOf secs (offset0 + (cborHeader 4 (secs.length * 2)).length)) := by
  have hshape : (encode_section_lengths secs).drop 0 = cborHeader 4 (secs.length * 2) ++
      ((secs.map fun s => writeTextItem s.name ++ writeUInt s.bytes.length).flatten ++ []) := by
    simp [encode_section_lengths]
  have hal := read_array_len_ok (by simp) h2K hshape
  have hpos1 := (pos_advance_le (by simp) hshape).1
  have hloop := readSectionOffsetsLoop_stream secs (encode_section_lengths secs)
    (0 + (cborHeader 4 (secs.length * 2)).length) []
    (offset0 + (0 + (cborHeader 4 (secs.length * 2)).length)) [] []
    hpos1 (drop_advance hshape) hwf (by simp) hnd
  have hdiv : secs.length * 2 / 2 = secs.length := by omega
  have hofl := offsetsOf_getLast_name secs
    (offset0 + (0 + (cborHeader 4 (secs.length * 2)).length))
  rw [hlast] at hofl
  obtain ⟨lastSo, hl1, hl2⟩ : ∃ x, (offsetsOf secs
      (offset0 + (0 + (cborHeader 4 (secs.length * 2)).length))).getLast? = some x ∧
      x.name = strBytes "responses" := by
    cases hx : (offsetsOf secs
        (offset0 + (0 + (cborHeader 4 (secs.length * 2)).length))).getLast? with
    | none =>
      rw [hx] at hofl
      simp at hofl
    | some x =>
      rw [hx] at hofl
      exact ⟨x, rfl, by simpa using hofl⟩
  simp only [read_section_offsets_cbor, hal, ok_bind, hdiv, hloop, List.nil_append,
    List.reverse_nil, hl1, hl2, if_pos]
  simp

theorem read_section_offsets_of (secs : List BundleSection) (buf : Bytes) (pos : Nat)
    (tail : Bytes) (hpos : pos ≤ buf.length)
    (hrem : buf.drop pos = writeBytesItem (encode_section_lengths secs) ++ tail)
    (hsmall : (encode_section_lengths secs).length < 8192)
    (hlen64 : (encode_section_lengths secs).length < 2 ^ 64)
    (h2K : secs.length * 2 < 2 ^ 64)
    (hwf : ∀ s ∈ secs, validUtf8 s.name = true ∧ s.name.length < 2 ^ 64 ∧
      s.bytes.length < 2 ^ 64)
    (hnd : (secs.map fun s => s.name).Nodup)
    (hlast : (secs.getLast?).map (fun s => s.name) = some (strBytes "responses")) :
    read_section_offsets ⟨buf, pos⟩ =
      .ok (offsetsOf secs (pos + (writeBytesItem (encode_section_lengths secs)).length +
          (cborHeader 4 (secs.length * 2)).length),
        ⟨buf, pos + (writeBytesItem (encode_section_lengths secs)).length⟩) := by
  have hb := dBytes_ok hpos hlen64 hrem
  have hcbor := read_section_offsets_cbor_of secs
    (pos + (writeBytesItem (encode_section_lengths secs)).length) h2K hwf hnd hlast
  simp only [read_section_offsets, hb, ok_bind, if_pos hsmall, hcbor]
  rfl

/-! ## Size and transport helpers -/

theorem cborHeader_len_le_9 (m n : Nat) : (cborHeader m n).length ≤ 9 := by
  unfold cborHeader
  by_cases h1 : n < 24
  · simp [h1]
  · by_cases h2 : n < 256
    · simp [h1, h2, beBytes_length]
    · by_cases h3 : n < 65536
      · simp [h1, h2, h3, beBytes_length]
      · by_cases h4 : n < 4294967296
        · simp [h1, h2, h3, h4, beBytes_length]
        · simp [h1, h2, h3, h4, beBytes_length]

theorem cborHeader_len_small {n : Nat} (m : Nat) (h : n < 24) :
    (cborHeader m n).length = 1 := by
  simp [cborHeader, h]

theorem locsFrom_length : ∀ (exs : List Exchange) (count : Nat),
    (locsFrom exs count).length = exs.length
  | [], _ => rfl
  | e :: t, count => by simp [locsFrom, locsFrom_length t]

theorem locsFrom_mem : ∀ (exs : List Exchange) (count : Nat),
    ∀ loc ∈ locsFrom exs count, ∃ e ∈ exs, loc.url = e.url
  | [], _, loc, h => by simp [locsFrom] at h
  | e :: t, count, loc, h => by
    simp only [locsFrom, List.mem_cons] at h
    rcases h with h | h
    · exact ⟨e, by simp, by rw [h]⟩
    · obtain ⟨e2, he2, hu⟩ := locsFrom_mem t _ loc h
      exact ⟨e2, by simp [he2], hu⟩

theorem locsFrom_pairwise (exs : List Exchange) (count : Nat) (hs : urlsSorted exs) :
    (locsFrom exs count).Pairwise fun a b => lexLt (indexKey a.url) (indexKey b.url) = true := by
  have h1 : ((locsFrom exs count).map fun loc => loc.url).Pairwise
      (fun a b => lexLt (indexKey a) (indexKey b) = true) := by
    rw [locsFrom_urls]
    rw [List.pairwise_map]
    exact hs
  rw [List.pairwise_map] at h1
  exact h1

theorem read_metadata_eval (vb : Bytes) (secs : List BundleSection) (rest : Bytes)
    (hvlen : vb.length = 4)
    (hsmall : (encode_section_lengths secs).length < 8192)
    (h2K : secs.length * 2 < 2 ^ 64)
    (hwfs : ∀ s ∈ secs, validUtf8 s.name = true ∧ s.name.length < 2 ^ 64 ∧
      s.bytes.length < 2 ^ 64)
    (hnd : (secs.map fun s => s.name).Nodup)
    (hlast : (secs.getLast?).map (fun s => s.name) = some (strBytes "responses")) :
    read_metadata ⟨cborHeader 4 5 ++ (writeBytesItem headerMagicBytes ++ (writeBytesItem vb ++
      (writeBytesItem (encode_section_lengths secs) ++ rest))), 0⟩ =
      .ok (⟨classifyVersion vb,
        offsetsOf secs ((cborHeader 4 5).length + (writeBytesItem headerMagicBytes).length +
          (writeBytesItem vb).length +
          (writeBytesItem (encode_section_lengths secs)).length +
          (cborHeader 4 (secs.length * 2)).length)⟩,
        ⟨cborHeader 4 5 ++ (writeBytesItem headerMagicBytes ++ (writeBytesItem vb ++
          (writeBytesItem (encode_section_lengths secs) ++ rest))),
          (cborHeader 4 5).length + (writeBytesItem headerMagicBytes).length +
            (writeBytesItem vb).length +
            (writeBytesItem (encode_section_lengths secs)).length⟩) := by
  have hrem0 : (cborHeader 4 5 ++ (writeBytesItem headerMagicBytes ++ (writeBytesItem vb ++
      (writeBytesItem (encode_section_lengths secs) ++ rest)))).drop 0 =
      cborHeader 4 5 ++ (writeBytesItem headerMagicBytes ++ (writeBytesItem vb ++
      (writeBytesItem (encode_section_lengths secs) ++ rest))) := List.drop_zero _
  have hal0 := read_array_len_ok (by simp) (by norm_num) hrem0
  have hpos1 := (pos_advance_le (by simp) hrem0).1
  have hrem1 := drop_advance hrem0
  have hmagb := dBytes_ok hpos1 (by decide) hrem1
  have hpos2 := (pos_advance_le hpos1 hrem1).1
  have hrem2 := drop_advance hrem1
  have hverb := dBytes_ok hpos2 (by rw [hvlen]; norm_num) hrem2
  have hpos3 := (pos_advance_le hpos2 hrem2).1
  have hrem3 := drop_advance hrem2
  have hsoff := read_section_offsets_of secs _ _ rest hpos3 hrem3 hsmall (by omega) h2K
    hwfs hnd hlast
  simp only [read_metadata, hal0, ok_bind, topArrayLen, if_pos, read_magic_bytes, hmagb,
    read_version, hverb, hvlen, if_pos, hsoff]
  simp only [Nat.zero_add, Nat.add_assoc]
  rfl

theorem read_sections_eval_nopr (buf : Bytes) (P : Nat) (IB RB t : Bytes)
    (entries : List RequestEntry)
    (hP : P ≤ buf.length)
    (hrem : buf.drop P = cborHeader 4 2 ++ (IB ++ (RB ++ t)))
    (hidx : read_index ⟨IB, 0⟩ (P + 1 + IB.length) = .ok entries) :
    read_sections ⟨buf, P⟩ [⟨strBytes "index", P + 1, IB.length⟩,
        ⟨strBytes "responses", P + 1 + IB.length, RB.length⟩] =
      .ok ((entries, none), ⟨buf, P + 1⟩) := by
  have hal := read_array_len_ok hP (by norm_num) hrem
  have hlen1 : (cborHeader 4 2).length = 1 := cborHeader_len_small 4 (by norm_num)
  have hpos1 : P + 1 ≤ buf.length := by
    have := (pos_advance_le hP hrem).1
    omega
  have hrem1 : buf.drop (P + 1) = IB ++ (RB ++ t) := by
    have := drop_advance hrem
    rwa [hlen1] at this
  have hpos2 : P + 1 + IB.length ≤ buf.length := (pos_advance_le hpos1 hrem1).1
  have hrem2 : buf.drop (P + 1 + IB.length) = RB ++ t := drop_advance hrem1
  have hpos3 : P + 1 + IB.length + RB.length ≤ buf.length := (pos_advance_le hpos2 hrem2).1
  have hsub1 : new_decoder_from_range ⟨buf, P + 1⟩ (P + 1)
      (P + 1 + IB.length) = .ok ⟨IB, 0⟩ := by
    unfold new_decoder_from_range
    rw [if_pos ⟨by omega, hpos2⟩]
    have htake : (buf.drop (P + 1)).take (P + 1 + IB.length - (P + 1)) = IB := by
      rw [hrem1]
      simp [List.take_left]
    simp only [htake]
  have hsub2 : new_decoder_from_range ⟨buf, P + 1⟩ (P + 1 + IB.length)
      (P + 1 + IB.length + RB.length) = .ok ⟨RB, 0⟩ := by
    unfold new_decoder_from_range
    rw [if_pos ⟨by omega, hpos3⟩]
    have htake : (buf.drop (P + 1 + IB.length)).take
        (P + 1 + IB.length + RB.length - (P + 1 + IB.length)) = RB := by
      rw [hrem2]
      simp [List.take_left]
    simp only [htake]
  have hc1 : knownSectionNames.contains (strBytes "index") = true := by decide
  have hc2 : knownSectionNames.contains (strBytes "responses") = true := by decide
  have hne1 : ¬(strBytes "responses" = strBytes "index") := by decide
  have hal2 : read_array_len ⟨buf, P⟩ = .ok (2, ⟨buf, P + 1⟩) := by rw [hal, hlen1]
  simp only [read_sections, hal2, ok_bind, List.length_cons, List.length_nil, if_pos,
    List.getLast?_cons_cons, List.getLast?_singleton, readSectionsLoop, hc1, hc2, if_true,
    hsub1, hsub2, hidx, hne1, if_neg, if_pos]
  simp

theorem read_sections_eval_pr (buf : Bytes) (P : Nat) (u IB RB t : Bytes)
    (entries : List RequestEntry)
    (hP : P ≤ buf.length)
    (hrem : buf.drop P = cborHeader 4 3 ++ (writeTextItem u ++ (IB ++ (RB ++ t))))
    (hu : validUtf8 u = true) (hul : u.length < 2 ^ 64)
    (hidx : read_index ⟨IB, 0⟩ (P + 1 + (writeTextItem u).length + IB.length) = .ok entries) :
    read_sections ⟨buf, P⟩ [⟨strBytes "primary", P + 1, (writeTextItem u).length⟩,
        ⟨strBytes "index", P + 1 + (writeTextItem u).length, IB.length⟩,
        ⟨strBytes "responses", P + 1 + (writeTextItem u).length + IB.length, RB.length⟩] =
      .ok ((entries, some u), ⟨buf, P + 1⟩) := by
  have hal := read_array_len_ok hP (by norm_num) hrem
  have hlen1 : (cborHeader 4 3).length = 1 := cborHeader_len_small 4 (by norm_num)
  have hpos1 : P + 1 ≤ buf.length := by
    have := (pos_advance_le hP hrem).1
    omega
  have hrem1 : buf.drop (P + 1) = writeTextItem u ++ (IB ++ (RB ++ t)) := by
    have := drop_advance hrem
    rwa [hlen1] at this
  have hpos2 : P + 1 + (writeTextItem u).length ≤ buf.length := (pos_advance_le hpos1 hrem1).1
  have hrem2 : buf.drop (P + 1 + (writeTextItem u).length) = IB ++ (RB ++ t) :=
    drop_advance hrem1
  have hpos3 : P + 1 + (writeTextItem u).length + IB.length ≤ buf.length :=
    (pos_advance_le hpos2 hrem2).1
  have hrem3 : buf.drop (P + 1 + (writeTextItem u).length + IB.length) = RB ++ t :=
    drop_advance hrem2
  have hpos4 : P + 1 + (writeTextItem u).length + IB.length + RB.length ≤ buf.length :=
    (pos_advance_le hpos3 hrem3).1
  have hsubP : new_decoder_from_range ⟨buf, P + 1⟩ (P + 1)
      (P + 1 + (writeTextItem u).length) = .ok ⟨writeTextItem u, 0⟩ := by
    unfold new_decoder_from_range
    rw [if_pos ⟨by omega, hpos2⟩]
    have htake : (buf.drop (P + 1)).take (P + 1 + (writeTextItem u).length - (P + 1)) =
        writeTextItem u := by
      rw [hrem1]
      simp [List.take_left]
    simp only [htake]
  have hsub1 : new_decoder_from_range ⟨buf, P + 1⟩ (P + 1 + (writeTextItem u).length)
      (P + 1 + (writeTextItem u).length + IB.length) = .ok ⟨IB, 0⟩ := by
    unfold new_decoder_from_range
    rw [if_pos ⟨by omega, hpos3⟩]
    have htake : (buf.drop (P + 1 + (writeTextItem u).length)).take
        (P + 1 + (writeTextItem u).length + IB.length - (P + 1 + (writeTextItem u).length)) =
        IB := by
      rw [hrem2]
      simp [List.take_left]
    simp only [htake]
  have hsub2 : new_decoder_from_range ⟨buf, P + 1⟩
      (P + 1 + (writeTextItem u).length + IB.length)
      (P + 1 + (writeTextItem u).length + IB.length + RB.length) = .ok ⟨RB, 0⟩ := by
    unfold new_decoder_from_range
    rw [if_pos ⟨by omega, hpos4⟩]
    have htake : (buf.drop (P + 1 + (writeTextItem u).length + IB.length)).take
        (P + 1 + (writeTextItem u).length + IB.length + RB.length -
          (P + 1 + (writeTextItem u).length + IB.length)) = RB := by
      rw [hrem3]
      simp [List.take_left]
    simp only [htake]
  have hpu : read_primary_url ⟨writeTextItem u, 0⟩ = .ok u := by
    have h0 : (writeTextItem u).drop 0 = writeTextItem u ++ [] := by simp
    have hdt := dText_ok (by simp) hul hu h0
    simp only [read_primary_url, hdt, ok_bind]
    rfl
  have hc1 : knownSectionNames.contains (strBytes "index") = true := by decide
  have hc2 : knownSectionNames.contains (strBytes "responses") = true := by decide
  have hc3 : knownSectionNames.contains (strBytes "primary") = true := by decide
  have hne1 : ¬(strBytes "responses" = strBytes "index") := by decide
  have hne2 : ¬(strBytes "primary" = strBytes "index") := by decide
  have hne3 : ¬(strBytes "primary" = strBytes "responses") := by decide
  have hal2 : read_array_len ⟨buf, P⟩ = .ok (3, ⟨buf, P + 1⟩) := by rw [hal, hlen1]
  simp only [read_sections, hal2, ok_bind, List.length_cons, List.length_nil, if_pos,
    List.getLast?_cons_cons, List.getLast?_singleton, readSectionsLoop, hc1, hc2, hc3, if_true,
    hsubP, hsub1, hsub2, hidx, hpu, hne1, hne2, hne3, if_neg, if_pos]
  simp

theorem decode_encodeCore (b : Bundle) (hwf : WfBundle b) (hsort : urlsSorted b.exchanges)
    (t : Bytes) :
    decode (encodeCore b ++ t) = .ok (decodedBundle b) := by
  obtain ⟨hver, hvlen, hpu, hexlen, hsecb, hexs⟩ := hwf
  cases hpue : b.primaryUrl with
  | none =>
    have hsecs : encode_sections b =
        [⟨strBytes "index", encode_index_section
            (locsFrom b.exchanges (cborHeader 4 b.exchanges.length).length)⟩,
          ⟨strBytes "responses", cborHeader 4 b.exchanges.length ++
            (b.exchanges.map fun e => responseEntryBytes e.response).flatten⟩] := by
      rw [encode_sections, hpue]
      simp [encode_response_section_eq]
    rw [hsecs] at hsecb
    have hIB64 : (encode_index_section
        (locsFrom b.exchanges (cborHeader 4 b.exchanges.length).length)).length < 2 ^ 64 :=
      hsecb ⟨strBytes "index", encode_index_section
        (locsFrom b.exchanges (cborHeader 4 b.exchanges.length).length)⟩ (by simp)
    have hRB64 : (cborHeader 4 b.exchanges.length ++
        (b.exchanges.map fun e => responseEntryBytes e.response).flatten).length < 2 ^ 64 :=
      hsecb ⟨strBytes "responses", cborHeader 4 b.exchanges.length ++
        (b.exchanges.map fun e => responseEntryBytes e.response).flatten⟩ (by simp)
    have hsmall : (encode_section_lengths [⟨strBytes "index", encode_index_section
        (locsFrom b.exchanges (cborHeader 4 b.exchanges.length).length)⟩,
        ⟨strBytes "responses", cborHeader 4 b.exchanges.length ++
          (b.exchanges.map fun e => responseEntryBytes e.response).flatten⟩]).length < 8192 := by
      have h1 := cborHeader_len_le_9 0 (encode_index_section
        (locsFrom b.exchanges (cborHeader 4 b.exchanges.length).length)).length
      have h2 := cborHeader_len_le_9 0 (cborHeader 4 b.exchanges.length ++
        (b.exchanges.map fun e => responseEntryBytes e.response).flatten).length
      have hwti1 : (writeTextItem (strBytes "index")).length = 6 := by decide
      have hwti2 : (writeTextItem (strBytes "responses")).length = 10 := by decide
      have hch : (cborHeader 4 (([⟨strBytes "index", encode_index_section
          (locsFrom b.exchanges (cborHeader 4 b.exchanges.length).length)⟩,
          ⟨strBytes "responses", cborHeader 4 b.exchanges.length ++
            (b.exchanges.map fun e => responseEntryBytes e.response).flatten⟩] :
          List BundleSection).length * 2)).length = 1 := by
        apply cborHeader_len_small
        norm_num
      have h3 := cborHeader_len_le_9 0 ((cborHeader 4 b.exchanges.length).length +
        (b.exchanges.map fun e => responseEntryBytes e.response).flatten.length)
      have hch2 : (cborHeader 4 ((0 + 1 + 1) * 2)).length = 1 := by
        apply cborHeader_len_small
        norm_num
      simp only [encode_section_lengths, hch, List.map_cons, List.map_nil, List.flatten_cons,
        List.flatten_nil, List.append_nil, List.length_append, hwti1, hwti2, writeUInt,
        List.length_cons, List.length_nil, hch2]
      omega
    set IBx := encode_index_section
      (locsFrom b.exchanges (cborHeader 4 b.exchanges.length).length) with hIBdef
    set RBx := cborHeader 4 b.exchanges.length ++
      (b.exchanges.map fun e => responseEntryBytes e.response).flatten with hRBdef
    set BLOB := encode_section_lengths [⟨strBytes "index", IBx⟩, ⟨strBytes "responses", RBx⟩]
      with hBLOBdef
    have hch42 : (cborHeader 4 2).length = 1 := cborHeader_len_small 4 (by norm_num)
    have hbufeq : encodeCore b ++ t = cborHeader 4 5 ++ (writeBytesItem headerMagicBytes ++
        (writeBytesItem b.version.bytes ++ (writeBytesItem BLOB ++
        (cborHeader 4 2 ++ (IBx ++ (RBx ++ t)))))) := by
      rw [show encodeCore b = cborHeader 4 topArrayLen ++
          writeBytesItem headerMagicBytes ++ writeBytesItem b.version.bytes ++
          writeBytesItem (encode_section_lengths (encode_sections b)) ++
          cborHeader 4 (encode_sections b).length ++
          ((encode_sections b).map fun s => s.bytes).flatten from rfl]
      rw [hsecs, hBLOBdef]
      simp [topArrayLen, List.append_assoc]
    have hmeta := read_metadata_eval b.version.bytes
      [⟨strBytes "index", IBx⟩, ⟨strBytes "responses", RBx⟩]
      (cborHeader 4 2 ++ (IBx ++ (RBx ++ t))) hvlen (hBLOBdef ▸ hsmall)
      (by norm_num)
      (by
        intro s hs
        simp only [List.mem_cons, List.not_mem_nil, or_false] at hs
        rcases hs with h | h
        · rw [h]
          refine ⟨?_, ?_, hIB64⟩
          · show validUtf8 (strBytes "index") = true
            decide
          · show (strBytes "index").length < 2 ^ 64
            decide
        · rw [h]
          refine ⟨?_, ?_, hRB64⟩
          · show validUtf8 (strBytes "responses") = true
            decide
          · show (strBytes "responses").length < 2 ^ 64
            decide)
      (by
        show ([strBytes "index", strBytes "responses"] : List Bytes).Nodup
        decide)
      (by simp)
    rw [← hBLOBdef] at hmeta
    have hchl : (cborHeader 4 (([⟨strBytes "index", IBx⟩, ⟨strBytes "responses", RBx⟩] :
        List BundleSection).length * 2)).length = 1 := by
      apply cborHeader_len_small
      norm_num
    rw [hchl] at hmeta
    have hsos : offsetsOf [⟨strBytes "index", IBx⟩, ⟨strBytes "responses", RBx⟩]
        ((cborHeader 4 5).length + (writeBytesItem headerMagicBytes).length +
          (writeBytesItem b.version.bytes).length + (writeBytesItem BLOB).length + 1) =
        [⟨strBytes "index", (cborHeader 4 5).length + (writeBytesItem headerMagicBytes).length +
            (writeBytesItem b.version.bytes).length + (writeBytesItem BLOB).length + 1,
          IBx.length⟩,
          ⟨strBytes "responses", (cborHeader 4 5).length +
            (writeBytesItem headerMagicBytes).length + (writeBytesItem b.version.bytes).length +
            (writeBytesItem BLOB).length + 1 + IBx.length, RBx.length⟩] := by
      simp [offsetsOf]
    rw [hsos] at hmeta
    have hd0 : (cborHeader 4 5 ++ (writeBytesItem headerMagicBytes ++
        (writeBytesItem b.version.bytes ++ (writeBytesItem BLOB ++
        (cborHeader 4 2 ++ (IBx ++ (RBx ++ t))))))).drop 0 =
        cborHeader 4 5 ++ (writeBytesItem headerMagicBytes ++
        (writeBytesItem b.version.bytes ++ (writeBytesItem BLOB ++
        (cborHeader 4 2 ++ (IBx ++ (RBx ++ t)))))) := List.drop_zero _
    have hle1 := (pos_advance_le (by simp) hd0).1
    have hd1 := drop_advance hd0
    rw [Nat.zero_add] at hd1 hle1
    have hle2 := (pos_advance_le hle1 hd1).1
    have hd2 := drop_advance hd1
    have hle3 := (pos_advance_le hle2 hd2).1
    have hd3 := drop_advance hd2
    have hle4 := (pos_advance_le hle3 hd3).1
    have hd4 := drop_advance hd3
    have hle5 := (pos_advance_le hle4 hd4).1
    have hd5 := drop_advance hd4
    rw [hch42] at hd5 hle5
    have hle6 := (pos_advance_le hle5 hd5).1
    have hd6 := drop_advance hd5
    have hd6b : (cborHeader 4 5 ++ (writeBytesItem headerMagicBytes ++
        (writeBytesItem b.version.bytes ++ (writeBytesItem BLOB ++
        (cborHeader 4 2 ++ (IBx ++ (RBx ++ t))))))).drop
        ((cborHeader 4 5).length + (writeBytesItem headerMagicBytes).length +
          (writeBytesItem b.version.bytes).length + (writeBytesItem BLOB).length + 1 +
          IBx.length) = cborHeader 4 b.exchanges.length ++
          ((b.exchanges.map fun e => responseEntryBytes e.response).flatten ++ t) := by
      rw [hd6, hRBdef, List.append_assoc]
    have hle7 := (pos_advance_le hle6 hd6b).1
    have hd7 := drop_advance hd6b
    have hlocwf : ∀ loc ∈ locsFrom b.exchanges (cborHeader 4 b.exchanges.length).length,
        validUtf8 loc.url = true ∧ loc.url.length < 2 ^ 64 ∧ loc.offset < 2 ^ 64 ∧
        loc.length < 2 ^ 64 := by
      intro loc hloc
      obtain ⟨e, he, hurl⟩ := locsFrom_mem _ _ loc hloc
      obtain ⟨hu8, hul, hwfr⟩ := hexs e he
      have hb := locsFrom_bounds _ _ loc hloc
      have hRBlen : RBx.length = (cborHeader 4 b.exchanges.length).length +
          (b.exchanges.map fun e => responseEntryBytes e.response).flatten.length := by
        rw [hRBdef, List.length_append]
      refine ⟨hurl ▸ hu8, hurl ▸ hul, ?_, ?_⟩
      · omega
      · omega
    have hnloc : (locsFrom b.exchanges (cborHeader 4 b.exchanges.length).length).length <
        2 ^ 64 := by
      rw [locsFrom_length]
      exact hexlen
    have hidx0 := read_index_of_encode
      (locsFrom b.exchanges (cborHeader 4 b.exchanges.length).length)
      ((cborHeader 4 5).length + (writeBytesItem headerMagicBytes).length +
        (writeBytesItem b.version.bytes).length + (writeBytesItem BLOB).length + 1 + IBx.length)
      [] (locsFrom_pairwise _ _ hsort) hlocwf hnloc
    rw [List.append_nil] at hidx0
    rw [← hIBdef] at hidx0
    have hsections := read_sections_eval_nopr _
      ((cborHeader 4 5).length + (writeBytesItem headerMagicBytes).length +
        (writeBytesItem b.version.bytes).length + (writeBytesItem BLOB).length)
      IBx RBx t _ hle4 hd4 hidx0
    have hresp := read_responses_layout b.exchanges _
      ((cborHeader 4 5).length + (writeBytesItem headerMagicBytes).length +
        (writeBytesItem b.version.bytes).length + (writeBytesItem BLOB).length + 1)
      ((cborHeader 4 5).length + (writeBytesItem headerMagicBytes).length +
        (writeBytesItem b.version.bytes).length + (writeBytesItem BLOB).length + 1 + IBx.length)
      (cborHeader 4 b.exchanges.length).length t hle7 hd7
      (fun e he => (hexs e he).2.2)
    rw [hbufeq]
    simp only [decode, hmeta, ok_bind, hsections, hresp]
    simp [decodedBundle, hpue, hver]


  | some u =>
    have hu8 : validUtf8 u = true ∧ u.length < 2 ^ 64 := by
      have := hpu u
      rw [hpue] at this
      exact this (by simp)
    have hsecs : encode_sections b =
        [⟨strBytes "primary", writeTextItem u⟩,
          ⟨strBytes "index", encode_index_section
            (locsFrom b.exchanges (cborHeader 4 b.exchanges.length).length)⟩,
          ⟨strBytes "responses", cborHeader 4 b.exchanges.length ++
            (b.exchanges.map fun e => responseEntryBytes e.response).flatten⟩] := by
      rw [encode_sections, hpue]
      simp [encode_response_section_eq, encode_primary_url_section]
    rw [hsecs] at hsecb
    have hIB64 : (encode_index_section
        (locsFrom b.exchanges (cborHeader 4 b.exchanges.length).length)).length < 2 ^ 64 :=
      hsecb ⟨strBytes "index", encode_index_section
        (locsFrom b.exchanges (cborHeader 4 b.exchanges.length).length)⟩ (by simp)
    have hRB64 : (cborHeader 4 b.exchanges.length ++
        (b.exchanges.map fun e => responseEntryBytes e.response).flatten).length < 2 ^ 64 :=
      hsecb ⟨strBytes "responses", cborHeader 4 b.exchanges.length ++
        (b.exchanges.map fun e => responseEntryBytes e.response).flatten⟩ (by simp)
    have hPB64 : (writeTextItem u).length < 2 ^ 64 :=
      hsecb ⟨strBytes "primary", writeTextItem u⟩ (by simp)
    have hsmall : (encode_section_lengths [⟨strBytes "primary", writeTextItem u⟩,
        ⟨strBytes "index", encode_index_section
          (locsFrom b.exchanges (cborHeader 4 b.exchanges.length).length)⟩,
        ⟨strBytes "responses", cborHeader 4 b.exchanges.length ++
          (b.exchanges.map fun e => responseEntryBytes e.response).flatten⟩]).length <
        8192 := by
      have h1 := cborHeader_len_le_9 0 (encode_index_section
        (locsFrom b.exchanges (cborHeader 4 b.exchanges.length).length)).length
      have h2 := cborHeader_len_le_9 0 (cborHeader 4 b.exchanges.length ++
        (b.exchanges.map fun e => responseEntryBytes e.response).flatten).length
      have h3 := cborHeader_len_le_9 0 ((cborHeader 4 b.exchanges.length).length +
        (b.exchanges.map fun e => responseEntryBytes e.response).flatten.length)
      have h4 := cborHeader_len_le_9 0 (writeTextItem u).length
      have hwti0 : (writeTextItem (strBytes "primary")).length = 8 := by decide
      have hwti1 : (writeTextItem (strBytes "index")).length = 6 := by decide
      have hwti2 : (writeTextItem (strBytes "responses")).length = 10 := by decide
      have hch2 : (cborHeader 4 ((0 + 1 + 1 + 1) * 2)).length = 1 := by
        apply cborHeader_len_small
        norm_num
      simp only [encode_section_lengths, List.map_cons, List.map_nil, List.flatten_cons,
        List.flatten_nil, List.append_nil, List.length_append, hwti0, hwti1, hwti2, writeUInt,
        List.length_cons, List.length_nil, hch2]
      omega
    set PBx := writeTextItem u with hPBdef
    set IBx := encode_index_section
      (locsFrom b.exchanges (cborHeader 4 b.exchanges.length).length) with hIBdef
    set RBx := cborHeader 4 b.exchanges.length ++
      (b.exchanges.map fun e => responseEntryBytes e.response).flatten with hRBdef
    set BLOB := encode_section_lengths [⟨strBytes "primary", PBx⟩, ⟨strBytes "index", IBx⟩,
      ⟨strBytes "responses", RBx⟩] with hBLOBdef
    have hch43 : (cborHeader 4 3).length = 1 := cborHeader_len_small 4 (by norm_num)
    have hbufeq : encodeCore b ++ t = cborHeader 4 5 ++ (writeBytesItem headerMagicBytes ++
        (writeBytesItem b.version.bytes ++ (writeBytesItem BLOB ++
        (cborHeader 4 3 ++ (PBx ++ (IBx ++ (RBx ++ t))))))) := by
      rw [show encodeCore b = cborHeader 4 topArrayLen ++
          writeBytesItem headerMagicBytes ++ writeBytesItem b.version.bytes ++
          writeBytesItem (encode_section_lengths (encode_sections b)) ++
          cborHeader 4 (encode_sections b).length ++
          ((encode_sections b).map fun s => s.bytes).flatten from rfl]
      rw [hsecs, hBLOBdef]
      simp [topArrayLen, List.append_assoc]
    have hmeta := read_metadata_eval b.version.bytes
      [⟨strBytes "primary", PBx⟩, ⟨strBytes "index", IBx⟩, ⟨strBytes "responses", RBx⟩]
      (cborHeader 4 3 ++ (PBx ++ (IBx ++ (RBx ++ t)))) hvlen (hBLOBdef ▸ hsmall)
      (by norm_num)
      (by
        intro s hs
        simp only [List.mem_cons, List.not_mem_nil, or_false] at hs
        rcases hs with h | h | h
        · rw [h]
          refine ⟨?_, ?_, hPB64⟩
          · show validUtf8 (strBytes "primary") = true
            decide
          · show (strBytes "primary").length < 2 ^ 64
            decide
        · rw [h]
          refine ⟨?_, ?_, hIB64⟩
          · show validUtf8 (strBytes "index") = true
            decide
          · show (strBytes "index").length < 2 ^ 64
            decide
        · rw [h]
          refine ⟨?_, ?_, hRB64⟩
          · show validUtf8 (strBytes "responses") = true
            decide
          · show (strBytes "responses").length < 2 ^ 64
            decide)
      (by
        show ([strBytes "primary", strBytes "index", strBytes "responses"] : List Bytes).Nodup
        decide)
      (by simp)
    rw [← hBLOBdef] at hmeta
    have hchl : (cborHeader 4 (([⟨strBytes "primary", PBx⟩, ⟨strBytes "index", IBx⟩,
        ⟨strBytes "responses", RBx⟩] : List BundleSection).length * 2)).length = 1 := by
      apply cborHeader_len_small
      norm_num
    rw [hchl] at hmeta
    have hsos : offsetsOf [⟨strBytes "primary", PBx⟩, ⟨strBytes "index", IBx⟩,
        ⟨strBytes "responses", RBx⟩]
        ((cborHeader 4 5).length + (writeBytesItem headerMagicBytes).length +
          (writeBytesItem b.version.bytes).length + (writeBytesItem BLOB).length + 1) =
        [⟨strBytes "primary", (cborHeader 4 5).length + (writeBytesItem headerMagicBytes).length +
            (writeBytesItem b.version.bytes).length + (writeBytesItem BLOB).length + 1,
          PBx.length⟩,
          ⟨strBytes "index", (cborHeader 4 5).length + (writeBytesItem headerMagicBytes).length +
            (writeBytesItem b.version.bytes).length + (writeBytesItem BLOB).length + 1 +
            PBx.length, IBx.length⟩,
          ⟨strBytes "responses", (cborHeader 4 5).length +
            (writeBytesItem headerMagicBytes).length + (writeBytesItem b.version.bytes).length +
            (writeBytesItem BLOB).length + 1 + PBx.length + IBx.length, RBx.length⟩] := by
      simp [offsetsOf, Nat.add_assoc]
    rw [hsos] at hmeta
    have hd0 : (cborHeader 4 5 ++ (writeBytesItem headerMagicBytes ++
        (writeBytesItem b.version.bytes ++ (writeBytesItem BLOB ++
        (cborHeader 4 3 ++ (PBx ++ (IBx ++ (RBx ++ t)))))))).drop 0 =
        cborHeader 4 5 ++ (writeBytesItem headerMagicBytes ++
        (writeBytesItem b.version.bytes ++ (writeBytesItem BLOB ++
        (cborHeader 4 3 ++ (PBx ++ (IBx ++ (RBx ++ t))))))) := List.drop_zero _
    have hle1 := (pos_advance_le (by simp) hd0).1
    have hd1 := drop_advance hd0
    rw [Nat.zero_add] at hd1 hle1
    have hle2 := (pos_advance_le hle1 hd1).1
    have hd2 := drop_advance hd1
    have hle3 := (pos_advance_le hle2 hd2).1
    have hd3 := drop_advance hd2
    have hle4 := (pos_advance_le hle3 hd3).1
    have hd4 := drop_advance hd3
    have hle5 := (pos_advance_le hle4 hd4).1
    have hd5 := drop_advance hd4
    rw [hch43] at hd5 hle5
    have hle6 := (pos_advance_le hle5 hd5).1
    have hd6 := drop_advance hd5
    have hle7 := (pos_advance_le hle6 hd6).1
    have hd7 := drop_advance hd6
    have hd7b : (cborHeader 4 5 ++ (writeBytesItem headerMagicBytes ++
        (writeBytesItem b.version.bytes ++ (writeBytesItem BLOB ++
        (cborHeader 4 3 ++ (PBx ++ (IBx ++ (RBx ++ t)))))))).drop
        ((cborHeader 4 5).length + (writeBytesItem headerMagicBytes).length +
          (writeBytesItem b.version.bytes).length + (writeBytesItem BLOB).length + 1 +
          PBx.length + IBx.length) = cborHeader 4 b.exchanges.length ++
          ((b.exchanges.map fun e => responseEntryBytes e.response).flatten ++ t) := by
      rw [hd7, hRBdef, List.append_assoc]
    have hle8 := (pos_advance_le hle7 hd7b).1
    have hd8 := drop_advance hd7b
    have hlocwf : ∀ loc ∈ locsFrom b.exchanges (cborHeader 4 b.exchanges.length).length,
        validUtf8 loc.url = true ∧ loc.url.length < 2 ^ 64 ∧ loc.offset < 2 ^ 64 ∧
        loc.length < 2 ^ 64 := by
      intro loc hloc
      obtain ⟨e, he, hurl⟩ := locsFrom_mem _ _ loc hloc
      obtain ⟨heu8, heul, hwfr⟩ := hexs e he
      have hb := locsFrom_bounds _ _ loc hloc
      have hRBlen : RBx.length = (cborHeader 4 b.exchanges.length).length +
          (b.exchanges.map fun e => responseEntryBytes e.response).flatten.length := by
        rw [hRBdef, List.length_append]
      refine ⟨hurl ▸ heu8, hurl ▸ heul, ?_, ?_⟩
      · omega
      · omega
    have hnloc : (locsFrom b.exchanges (cborHeader 4 b.exchanges.length).length).length <
        2 ^ 64 := by
      rw [locsFrom_length]
      exact hexlen
    have hidx0 := read_index_of_encode
      (locsFrom b.exchanges (cborHeader 4 b.exchanges.length).length)
      ((cborHeader 4 5).length + (writeBytesItem headerMagicBytes).length +
        (writeBytesItem b.version.bytes).length + (writeBytesItem BLOB).length + 1 +
        PBx.length + IBx.length)
      [] (locsFrom_pairwise _ _ hsort) hlocwf hnloc
    rw [List.append_nil] at hidx0
    rw [← hIBdef] at hidx0
    have hsections := read_sections_eval_pr _
      ((cborHeader 4 5).length + (writeBytesItem headerMagicBytes).length +
        (writeBytesItem b.version.bytes).length + (writeBytesItem BLOB).length)
      u IBx RBx t _ hle4 (by rw [hPBdef] at hd4; exact hd4) hu8.1 hu8.2
      (by rw [hPBdef] at hidx0; exact hidx0)
    have hresp := read_responses_layout b.exchanges _
      ((cborHeader 4 5).length + (writeBytesItem headerMagicBytes).length +
        (writeBytesItem b.version.bytes).length + (writeBytesItem BLOB).length + 1)
      ((cborHeader 4 5).length + (writeBytesItem headerMagicBytes).length +
        (writeBytesItem b.version.bytes).length + (writeBytesItem BLOB).length + 1 +
        PBx.length + IBx.length)
      (cborHeader 4 b.exchanges.length).length t hle8 hd8
      (fun e he => (hexs e he).2.2)
    rw [hbufeq]
    simp only [decode, hmeta, ok_bind]
    rw [show ([⟨strBytes "primary",
        (cborHeader 4 5).length + (writeBytesItem headerMagicBytes).length +
          (writeBytesItem b.version.bytes).length + (writeBytesItem BLOB).length + 1,
        PBx.length⟩,
        ⟨strBytes "index", (cborHeader 4 5).length + (writeBytesItem headerMagicBytes).length +
          (writeBytesItem b.version.bytes).length + (writeBytesItem BLOB).length + 1 +
          PBx.length, IBx.length⟩,
        ⟨strBytes "responses", (cborHeader 4 5).length +
          (writeBytesItem headerMagicBytes).length + (writeBytesItem b.version.bytes).length +
          (writeBytesItem BLOB).length + 1 + PBx.length + IBx.length, RBx.length⟩] :
        List SectionOffset) = [⟨strBytes "primary",
        (cborHeader 4 5).length + (writeBytesItem headerMagicBytes).length +
          (writeBytesItem b.version.bytes).length + (writeBytesItem BLOB).length + 1,
        (writeTextItem u).length⟩,
        ⟨strBytes "index", (cborHeader 4 5).length + (writeBytesItem headerMagicBytes).length +
          (writeBytesItem b.version.bytes).length + (writeBytesItem BLOB).length + 1 +
          (writeTextItem u).length, IBx.length⟩,
        ⟨strBytes "responses", (cborHeader 4 5).length +
          (writeBytesItem headerMagicBytes).length + (writeBytesItem b.version.bytes).length +
          (writeBytesItem BLOB).length + 1 + (writeTextItem u).length + IBx.length,
          RBx.length⟩] from by rw [hPBdef]]
    rw [hsections]
    simp only [ok_bind, hresp]
    simp [decodedBundle, hpue, hver]

/-! ## Helper lemmas for the claim theorems -/

theorem mem_headerInsert {x : Bytes × Bytes} {n v : Bytes} :
    ∀ {l : List (Bytes × Bytes)}, x ∈ headerInsert n v l → x = (n, v) ∨ x ∈ l
  | [], h => by simpa [headerInsert] using h
  | (n1, v1) :: t, h => by
    rw [headerInsert] at h
    split at h
    · rcases List.mem_cons.mp h with h1 | h1
      · exact .inl h1
      · exact .inr (List.mem_cons_of_mem _ h1)
    · rcases List.mem_cons.mp h with h1 | h1
      · exact .inr (h1 ▸ List.mem_cons_self _ _)
      · rcases mem_headerInsert h1 with h2 | h2
        · exact .inl h2
        · exact .inr (List.mem_cons_of_mem _ h2)

theorem decodedHeaders_perm (r : Response) (hwf : WfResponse r) :
    (decodedHeaders r).Perm r.headers := by
  obtain ⟨hs100, hs999, hbody, hhl, hcnt, hnodup, hpairs⟩ := hwf
  have hname58 : ∀ p ∈ r.headers, ¬p.1.head? = some 58 := fun p hp =>
    validLower_head_ne58 (hpairs p hp).1
  have hnameNe : ∀ p ∈ r.headers, p.1 ≠ strBytes ":status" := fun p hp =>
    validLower_ne_statusKey (hpairs p hp).1
  have hlen1 : ∀ p ∈ (strBytes ":status", statusBytes r.status) :: r.headers,
      p.1.length < 2 ^ 64 := by
    intro p hp
    rcases List.mem_cons.mp hp with h | h
    · rw [h]
      show (strBytes ":status").length < 2 ^ 64
      decide
    · exact (hpairs p h).2.1
  have hnamesNodup : (((strBytes ":status", statusBytes r.status) :: r.headers).map
      Prod.fst).Nodup := by
    simp only [List.map_cons, List.nodup_cons]
    refine ⟨?_, hnodup⟩
    intro hmem
    obtain ⟨p, hp, hpe⟩ := List.mem_map.mp hmem
    exact hnameNe p hp hpe
  have hkeysNodup : (((strBytes ":status", statusBytes r.status) :: r.headers).map
      fun p => writeBytesItem p.1).Nodup := by
    have h1 : ((((strBytes ":status", statusBytes r.status) :: r.headers).map Prod.fst).map
        writeBytesItem).Nodup := by
      refine List.Nodup.map_on ?_ hnamesNodup
      intro x hx y hy he
      obtain ⟨p, hp, hpe⟩ := List.mem_map.mp hx
      obtain ⟨q, hq, hqe⟩ := List.mem_map.mp hy
      exact writeBytesItem_inj (hpe ▸ hlen1 p hp) (hqe ▸ hlen1 q hq) he
    simpa [List.map_map] using h1
  have hperm : (rawHeaderSort ((strBytes ":status", statusBytes r.status) :: r.headers)).Perm
      ((strBytes ":status", statusBytes r.status) :: r.headers) := by
    have h1 := rawFold_perm ((strBytes ":status", statusBytes r.status) :: r.headers) []
      (by simpa using hkeysNodup)
    simpa [rawHeaderSort] using h1
  have hfil := hperm.filter fun p => !(p.1.head? == some 58)
  have hrhs : (((strBytes ":status", statusBytes r.status) :: r.headers).filter
      fun p => !(p.1.head? == some 58)) = r.headers := by
    rw [List.filter_cons]
    have hsp : (!((strBytes ":status", statusBytes r.status).1.head? == some 58)) = false := by
      show (!((strBytes ":status").head? == some 58)) = false
      rw [statusKey_head]
      rfl
    rw [hsp]
    simp only [Bool.false_eq_true, if_neg, if_false]
    refine List.filter_eq_self.mpr ?_
    intro p hp
    simp [hname58 p hp]
  rw [decodedHeaders]
  rw [hrhs] at hfil
  exact hfil

theorem read_index_nil (respOff : Nat) : read_index ⟨cborHeader 5 0, 0⟩ respOff = .ok [] := rfl

theorem readHeadersLoop_names :
    ∀ (n : Nat) (s : DState) (st0 : Option Nat) (hs0 : List (Bytes × Bytes))
      (st : Option Nat) (hs : List (Bytes × Bytes)),
      readHeadersLoop n s st0 hs0 = .ok (st, hs) →
      (∀ p ∈ hs0, validLowerHeaderName p.1 = true ∧ ¬p.1.head? = some 58) →
      ∀ p ∈ hs, validLowerHeaderName p.1 = true ∧ ¬p.1.head? = some 58
  | 0, s, st0, hs0, st, hs, h, h0 => by
    simp only [readHeadersLoop, Except.ok.injEq, Prod.mk.injEq] at h
    exact h.2 ▸ h0
  | n + 1, s, st0, hs0, st, hs, h, h0 => by
    rw [readHeadersLoop] at h
    cases hdb : dBytes s with
    | error e => rw [hdb] at h; simp at h
    | ok p1 =>
      rw [hdb, ok_bind] at h
      obtain ⟨nameB, s1⟩ := p1
      simp only [] at h
      by_cases hu1 : validUtf8 nameB = true
      · rw [if_pos hu1] at h
        cases hdb2 : dBytes s1 with
        | error e => rw [hdb2] at h; simp at h
        | ok p2 =>
          rw [hdb2, ok_bind] at h
          obtain ⟨valB, s2⟩ := p2
          simp only [] at h
          by_cases hu2 : validUtf8 valB = true
          · rw [if_pos hu2] at h
            by_cases h58 : nameB.head? = some 58
            · rw [if_pos h58] at h
              by_cases hst : nameB = strBytes ":status"
              · rw [if_pos hst] at h
                cases st0 with
                | some v => simp at h
                | none =>
                  cases hps : parseStatus valB with
                  | some v =>
                    rw [hps] at h
                    exact readHeadersLoop_names n s2 (some v) hs0 st hs h h0
                  | none => rw [hps] at h; simp at h
              · rw [if_neg hst] at h; simp at h
            · rw [if_neg h58] at h
              by_cases hvl : validLowerHeaderName nameB = true
              · rw [if_pos hvl] at h
                by_cases hvv : valB.all validHeaderValueByte = true
                · rw [if_pos hvv] at h
                  refine readHeadersLoop_names n s2 st0 (headerInsert nameB valB hs0) st hs h ?_
                  intro p hp
                  rcases mem_headerInsert hp with h1 | h1
                  · rw [h1]
                    exact ⟨hvl, h58⟩
                  · exact h0 p h1
                · rw [if_neg hvv] at h; simp at h
              · rw [if_neg hvl] at h; simp at h
          · rw [if_neg hu2] at h; simp at h
      · rw [if_neg hu1] at h; simp at h

theorem dTake_error_elim {n : Nat} {s : DState} {e : DErr} (h : dTake n s = .error e) :
    e = DErr.cbor := by
  unfold dTake at h
  split at h
  · simp at h
  · simp only [Except.error.injEq] at h
    exact h.symm

theorem dText_error_elim {s : DState} {e : DErr} (h : dText s = .error e) : e = DErr.cbor := by
  unfold dText at h
  split at h
  · split at h
    · split at h
      · simp at h
      · simp only [Except.error.injEq] at h
        exact h.symm
    · next e1 he1 =>
      simp only [Except.error.injEq] at h
      exact h ▸ dTake_error_elim he1
  · simp only [Except.error.injEq] at h
    exact h.symm

theorem dUInt_error_elim {s : DState} {e : DErr} (h : dUInt s = .error e) : e = DErr.cbor := by
  unfold dUInt at h
  split at h
  · simp at h
  · simp only [Except.error.injEq] at h
    exact h.symm

theorem read_array_len_error_elim {s : DState} {e : DErr} (h : read_array_len s = .error e) :
    e = DErr.cbor := by
  unfold read_array_len at h
  split at h
  · simp at h
  · simp only [Except.error.injEq] at h
    exact h.symm

theorem readSectionOffsetsLoop_ne_tooLarge :
    ∀ (n : Nat) (s : DState) (off : Nat) (seen : List Bytes) (acc : List SectionOffset),
      readSectionOffsetsLoop n s off seen acc ≠ .error DErr.sectionTableTooLarge
  | 0, _, _, _, _ => by simp [readSectionOffsetsLoop]
  | n + 1, s, off, seen, acc => by
    rw [readSectionOffsetsLoop]
    cases hdt : dText s with
    | error e =>
      have he : e = DErr.cbor := dText_error_elim hdt
      subst he
      simp
    | ok p =>
      obtain ⟨name, s1⟩ := p
      rw [ok_bind]
      simp only []
      by_cases hseen : seen.contains name = true
      · rw [if_pos hseen]
        simp
      · rw [if_neg hseen]
        cases hdu : dUInt s1 with
        | error e =>
          have he : e = DErr.cbor := dUInt_error_elim hdu
          subst he
          simp
        | ok q =>
          obtain ⟨len, s2⟩ := q
          rw [ok_bind]
          simp only []
          exact readSectionOffsetsLoop_ne_tooLarge n s2 (off + len) (name :: seen)
            (⟨name, off, len⟩ :: acc)

theorem read_section_offsets_cbor_ne_tooLarge (inner : DState) (off0 : Nat) :
    read_section_offsets_cbor inner off0 ≠ .error DErr.sectionTableTooLarge := by
  unfold read_section_offsets_cbor
  cases hal : read_array_len inner with
  | error e =>
    have he : e = DErr.cbor := read_array_len_error_elim hal
    subst he
    simp
  | ok p =>
    obtain ⟨n, s1⟩ := p
    rw [ok_bind]
    simp only []
    cases hlp : readSectionOffsetsLoop (n / 2) s1 (off0 + s1.pos) [] [] with
    | error e =>
      rw [error_bind]
      intro hcon
      rw [Except.error.injEq] at hcon
      exact readSectionOffsetsLoop_ne_tooLarge _ _ _ _ _ (hcon ▸ hlp)
    | ok sos =>
      rw [ok_bind]
      cases hgl : sos.getLast? with
      | none => simp
      | some lastSo =>
        simp only []
        by_cases hr : lastSo.name = strBytes "responses"
        · rw [if_pos hr]
          simp
        · rw [if_neg hr]
          simp

theorem read_sections_eval_crit (buf : Bytes) (P : Nat) (CB IB RB t : Bytes)
    (entries : List RequestEntry)
    (hP : P ≤ buf.length)
    (hrem : buf.drop P = cborHeader 4 3 ++ (CB ++ (IB ++ (RB ++ t))))
    (hidx : read_index ⟨IB, 0⟩ (P + 1 + CB.length + IB.length) = .ok entries) :
    read_sections ⟨buf, P⟩ [⟨strBytes "critical", P + 1, CB.length⟩,
        ⟨strBytes "index", P + 1 + CB.length, IB.length⟩,
        ⟨strBytes "responses", P + 1 + CB.length + IB.length, RB.length⟩] =
      .ok ((entries, none), ⟨buf, P + 1⟩) := by
  have hal := read_array_len_ok hP (by norm_num) hrem
  have hlen1 : (cborHeader 4 3).length = 1 := cborHeader_len_small 4 (by norm_num)
  have hpos1 : P + 1 ≤ buf.length := by
    have := (pos_advance_le hP hrem).1
    omega
  have hrem1 : buf.drop (P + 1) = CB ++ (IB ++ (RB ++ t)) := by
    have := drop_advance hrem
    rwa [hlen1] at this
  have hpos2 : P + 1 + CB.length ≤ buf.length := (pos_advance_le hpos1 hrem1).1
  have hrem2 : buf.drop (P + 1 + CB.length) = IB ++ (RB ++ t) := drop_advance hrem1
  have hpos3 : P + 1 + CB.length + IB.length ≤ buf.length := (pos_advance_le hpos2 hrem2).1
  have hrem3 : buf.drop (P + 1 + CB.length + IB.length) = RB ++ t := drop_advance hrem2
  have hpos4 : P + 1 + CB.length + IB.length + RB.length ≤ buf.length :=
    (pos_advance_le hpos3 hrem3).1
  have hsubC : new_decoder_from_range ⟨buf, P + 1⟩ (P + 1) (P + 1 + CB.length) =
      .ok ⟨CB, 0⟩ := by
    unfold new_decoder_from_range
    rw [if_pos ⟨by omega, hpos2⟩]
    have htake : (buf.drop (P + 1)).take (P + 1 + CB.length - (P + 1)) = CB := by
      rw [hrem1]
      simp [List.take_left]
    simp only [htake]
  have hsub1 : new_decoder_from_range ⟨buf, P + 1⟩ (P + 1 + CB.length)
      (P + 1 + CB.length + IB.length) = .ok ⟨IB, 0⟩ := by
    unfold new_decoder_from_range
    rw [if_pos ⟨by omega, hpos3⟩]
    have htake : (buf.drop (P + 1 + CB.length)).take
        (P + 1 + CB.length + IB.length - (P + 1 + CB.length)) = IB := by
      rw [hrem2]
      simp [List.take_left]
    simp only [htake]
  have hsub2 : new_decoder_from_range ⟨buf, P + 1⟩ (P + 1 + CB.length + IB.length)
      (P + 1 + CB.length + IB.length + RB.length) = .ok ⟨RB, 0⟩ := by
    unfold new_decoder_from_range
    rw [if_pos ⟨by omega, hpos4⟩]
    have htake : (buf.drop (P + 1 + CB.length + IB.length)).take
        (P + 1 + CB.length + IB.length + RB.length - (P + 1 + CB.length + IB.length)) = RB := by
      rw [hrem3]
      simp [List.take_left]
    simp only [htake]
  have hc0 : knownSectionNames.contains (strBytes "critical") = true := by decide
  have hc1 : knownSectionNames.contains (strBytes "index") = true := by decide
  have hc2 : knownSectionNames.contains (strBytes "responses") = true := by decide
  have hne1 : ¬(strBytes "responses" = strBytes "index") := by decide
  have hne2 : ¬(strBytes "critical" = strBytes "index") := by decide
  have hne3 : ¬(strBytes "critical" = strBytes "responses") := by decide
  have hne4 : ¬(strBytes "critical" = strBytes "primary") := by decide
  have hal2 : read_array_len ⟨buf, P⟩ = .ok (3, ⟨buf, P + 1⟩) := by rw [hal, hlen1]
  simp only [read_sections, hal2, ok_bind, List.length_cons, List.length_nil, if_pos,
    List.getLast?_cons_cons, List.getLast?_singleton, readSectionsLoop, hc0, hc1, hc2, if_true,
    hsubC, hsub1, hsub2, hidx, hne1, hne2, hne3, hne4, if_neg, if_pos]
  simp

/-- C4: the spec says an unrecognized name in a `critical` section causes a
`CriticalUnknown` decode error. Corrected: the source match in
`Decoder::read_sections` sends `critical` to the catch-all arm, which only
logs, so the critical payload is never parsed or validated. Amended
statement, proved here: any 12-byte critical payload `c` — whether it lists
unimplemented section names or is not even CBOR — leaves the decode of the
surrounding bundle unchanged and successful. -/
theorem c4_critical_section_skipped (c : Bytes) (hc : c.length = 12) :
    decode (c4input c) = .ok ⟨.versionB2, none, []⟩ := by
  have hblob : encode_section_lengths (c4Secs c) =
      encode_section_lengths (c4Secs (List.replicate 12 0)) := by
    simp [encode_section_lengths, c4Secs, hc]
  have hmeta := read_metadata_eval Version.versionB2.bytes (c4Secs c)
    (cborHeader 4 3 ++ (c ++ (cborHeader 5 0 ++ cborHeader 4 0)))
    (by decide)
    (by rw [hblob]; decide)
    (by
      show (3 : Nat) * 2 < 2 ^ 64
      norm_num)
    (by
      intro s hs
      simp only [c4Secs, List.mem_cons, List.not_mem_nil, or_false] at hs
      rcases hs with h | h | h
      · rw [h]
        refine ⟨?_, ?_, ?_⟩
        · show validUtf8 (strBytes "critical") = true
          decide
        · show (strBytes "critical").length < 2 ^ 64
          decide
        · show c.length < 2 ^ 64
          rw [hc]
          norm_num
      · rw [h]
        refine ⟨?_, ?_, ?_⟩
        · show validUtf8 (strBytes "index") = true
          decide
        · show (strBytes "index").length < 2 ^ 64
          decide
        · show (cborHeader 5 0).length < 2 ^ 64
          decide
      · rw [h]
        refine ⟨?_, ?_, ?_⟩
        · show validUtf8 (strBytes "responses") = true
          decide
        · show (strBytes "responses").length < 2 ^ 64
          decide
        · show (cborHeader 4 0).length < 2 ^ 64
          decide)
    (by
      show ([strBytes "critical", strBytes "index", strBytes "responses"] : List Bytes).Nodup
      decide)
    (by simp [c4Secs])
  have hchl : (cborHeader 4 ((c4Secs c).length * 2)).length = 1 := by
    show (cborHeader 4 (3 * 2)).length = 1
    decide
  rw [hchl] at hmeta
  have hsos : offsetsOf (c4Secs c)
      ((cborHeader 4 5).length + (writeBytesItem headerMagicBytes).length +
        (writeBytesItem Version.versionB2.bytes).length +
        (writeBytesItem (encode_section_lengths (c4Secs c))).length + 1) =
      [⟨strBytes "critical", (cborHeader 4 5).length + (writeBytesItem headerMagicBytes).length +
          (writeBytesItem Version.versionB2.bytes).length +
          (writeBytesItem (encode_section_lengths (c4Secs c))).length + 1, c.length⟩,
        ⟨strBytes "index", (cborHeader 4 5).length + (writeBytesItem headerMagicBytes).length +
          (writeBytesItem Version.versionB2.bytes).length +
          (writeBytesItem (encode_section_lengths (c4Secs c))).length + 1 + c.length,
          (cborHeader 5 0).length⟩,
        ⟨strBytes "responses", (cborHeader 4 5).length +
          (writeBytesItem headerMagicBytes).length +
          (writeBytesItem Version.versionB2.bytes).length +
          (writeBytesItem (encode_section_lengths (c4Secs c))).length + 1 + c.length +
          (cborHeader 5 0).length, (cborHeader 4 0).length⟩] := by
    simp [offsetsOf, c4Secs]
  rw [hsos] at hmeta
  have hd0 : (cborHeader 4 5 ++ (writeBytesItem headerMagicBytes ++
      (writeBytesItem Version.versionB2.bytes ++
        (writeBytesItem (encode_section_lengths (c4Secs c)) ++
          (cborHeader 4 3 ++ (c ++ (cborHeader 5 0 ++ cborHeader 4 0))))))).drop 0 =
      cborHeader 4 5 ++ (writeBytesItem headerMagicBytes ++
      (writeBytesItem Version.versionB2.bytes ++
        (writeBytesItem (encode_section_lengths (c4Secs c)) ++
          (cborHeader 4 3 ++ (c ++ (cborHeader 5 0 ++ cborHeader 4 0)))))) := List.drop_zero _
  have hle1 := (pos_advance_le (by simp) hd0).1
  have hd1 := drop_advance hd0
  rw [Nat.zero_add] at hd1 hle1
  have hle2 := (pos_advance_le hle1 hd1).1
  have hd2 := drop_advance hd1
  have hle3 := (pos_advance_le hle2 hd2).1
  have hd3 := drop_advance hd2
  have hle4 := (pos_advance_le hle3 hd3).1
  have hd4 := drop_advance hd3
  have hd4b : (cborHeader 4 5 ++ (writeBytesItem headerMagicBytes ++
      (writeBytesItem Version.versionB2.bytes ++
        (writeBytesItem (encode_section_lengths (c4Secs c)) ++
          (cborHeader 4 3 ++ (c ++ (cborHeader 5 0 ++ cborHeader 4 0))))))).drop
      ((cborHeader 4 5).length + (writeBytesItem headerMagicBytes).length +
        (writeBytesItem Version.versionB2.bytes).length +
        (writeBytesItem (encode_section_lengths (c4Secs c))).length) =
      cborHeader 4 3 ++ (c ++ (cborHeader 5 0 ++ (cborHeader 4 0 ++ []))) := by
    rw [hd4]
    simp
  have hidx : read_index ⟨cborHeader 5 0, 0⟩
      ((cborHeader 4 5).length + (writeBytesItem headerMagicBytes).length +
        (writeBytesItem Version.versionB2.bytes).length +
        (writeBytesItem (encode_section_lengths (c4Secs c))).length + 1 + c.length +
        (cborHeader 5 0).length) = .ok [] := read_index_nil _
  have hsections := read_sections_eval_crit _ _ c (cborHeader 5 0) (cborHeader 4 0) [] []
    hle4 hd4b hidx
  rw [show c4input c = cborHeader 4 5 ++ (writeBytesItem headerMagicBytes ++
      (writeBytesItem Version.versionB2.bytes ++
        (writeBytesItem (encode_section_lengths (c4Secs c)) ++
          (cborHeader 4 3 ++ (c ++ (cborHeader 5 0 ++ cborHeader 4 0)))))) from rfl]
  simp only [decode, hmeta, ok_bind, hsections]
  show (read_responses _ [] >>= _) = _
  rw [show read_responses ⟨cborHeader 4 5 ++ (writeBytesItem headerMagicBytes ++
      (writeBytesItem Version.versionB2.bytes ++
        (writeBytesItem (encode_section_lengths (c4Secs c)) ++
          (cborHeader 4 3 ++ (c ++ (cborHeader 5 0 ++ cborHeader 4 0)))))),
      (cborHeader 4 5).length + (writeBytesItem headerMagicBytes).length +
        (writeBytesItem Version.versionB2.bytes).length +
        (writeBytesItem (encode_section_lengths (c4Secs c))).length + 1⟩ [] = .ok [] from rfl]
  rw [ok_bind]
  rfl

/-- C9 (confirmed): `Decoder::read_section_offsets` fails with
`SectionTableTooLarge` exactly when the section-lengths byte string it reads
is 8192 bytes or longer; a shorter blob can fail for other reasons but never
with that error. At the `parse` level, any input whose header carries a
blob of 8192 bytes or more fails with exactly that error. -/
theorem c9_section_table_limit :
    (∀ (buf : Bytes) (pos : Nat) (blob rest : Bytes),
      pos ≤ buf.length → buf.drop pos = writeBytesItem blob ++ rest →
      blob.length < 2 ^ 64 →
      (read_section_offsets ⟨buf, pos⟩ = .error DErr.sectionTableTooLarge ↔
        8192 ≤ blob.length)) ∧
    ∀ (vb blob rest : Bytes), vb.length = 4 → blob.length < 2 ^ 64 →
      8192 ≤ blob.length →
      decode (cborHeader 4 5 ++ (writeBytesItem headerMagicBytes ++ (writeBytesItem vb ++
        (writeBytesItem blob ++ rest)))) = .error DErr.sectionTableTooLarge := by
  constructor
  · intro buf pos blob rest hpos hrem hlen
    have hb := dBytes_ok hpos hlen hrem
    constructor
    · intro herr
      by_contra hge
      push_neg at hge
      rw [read_section_offsets, hb, ok_bind] at herr
      simp only [] at herr
      rw [if_pos hge] at herr
      cases hcb : read_section_offsets_cbor ⟨blob, 0⟩
          ((⟨buf, pos + (writeBytesItem blob).length⟩ : DState).pos) with
      | error e =>
        rw [hcb, error_bind, Except.error.injEq] at herr
        exact read_section_offsets_cbor_ne_tooLarge _ _ (herr ▸ hcb)
      | ok sos =>
        rw [hcb, ok_bind] at herr
        simp at herr
    · intro hge
      rw [read_section_offsets, hb, ok_bind]
      simp only []
      rw [if_neg (by omega)]
      rfl
  · intro vb blob rest hvlen hlen hge
    have hd0 : (cborHeader 4 5 ++ (writeBytesItem headerMagicBytes ++ (writeBytesItem vb ++
        (writeBytesItem blob ++ rest)))).drop 0 = cborHeader 4 5 ++
        (writeBytesItem headerMagicBytes ++ (writeBytesItem vb ++
        (writeBytesItem blob ++ rest))) := List.drop_zero _
    have hal0 := read_array_len_ok (by simp) (by norm_num) hd0
    have hle1 := (pos_advance_le (by simp) hd0).1
    have hd1 := drop_advance hd0
    rw [Nat.zero_add] at hd1 hle1 hal0
    have hmagb := dBytes_ok hle1 (by decide) hd1
    have hle2 := (pos_advance_le hle1 hd1).1
    have hd2 := drop_advance hd1
    have hverb := dBytes_ok hle2 (by rw [hvlen]; norm_num) hd2
    have hle3 := (pos_advance_le hle2 hd2).1
    have hd3 := drop_advance hd2
    have hblobb := dBytes_ok hle3 hlen hd3
    have hsoff : read_section_offsets ⟨cborHeader 4 5 ++ (writeBytesItem headerMagicBytes ++
        (writeBytesItem vb ++ (writeBytesItem blob ++ rest))),
        (cborHeader 4 5).length + (writeBytesItem headerMagicBytes).length +
          (writeBytesItem vb).length⟩ = .error DErr.sectionTableTooLarge := by
      rw [read_section_offsets, hblobb, ok_bind]
      simp only []
      rw [if_neg (by omega)]
      rfl
    simp only [decode, read_metadata, hal0, ok_bind, topArrayLen, if_pos, read_magic_bytes,
      hmagb, read_version, hverb, hvlen, if_pos, hsoff, error_bind]

/-- C1: the spec claims `parse(encode(b))` is structurally equal to `b` for
every builder-producible bundle. Corrected: the decoder returns exchanges in
index order (sorted by serialized URL key), not insertion order, so the
round trip holds only up to that reordering. Amended statement, proved
here: for every wellformed bundle whose exchange URLs are already in
canonical order, decode of the encode succeeds and agrees with `b` on
version, primary URL and exchange count, and exchange by exchange on URL,
response status, response body, and headers as multisets (the decoder
re-sorts headers, so they match as permutations). -/
theorem c1_round_trip_up_to_canonical_order (b : Bundle) (hwf : WfBundle b)
    (hsort : urlsSorted b.exchanges) :
    ∃ d, decode (encodeBytes b) = .ok d ∧
      d.version = b.version ∧
      d.primaryUrl = b.primaryUrl ∧
      d.exchanges.length = b.exchanges.length ∧
      ∀ (i : Nat) (hi : i < b.exchanges.length) (hi2 : i < d.exchanges.length),
        (d.exchanges.get ⟨i, hi2⟩).url = (b.exchanges.get ⟨i, hi⟩).url ∧
        (d.exchanges.get ⟨i, hi2⟩).response.status = (b.exchanges.get ⟨i, hi⟩).response.status ∧
        (d.exchanges.get ⟨i, hi2⟩).response.body = (b.exchanges.get ⟨i, hi⟩).response.body ∧
        ((d.exchanges.get ⟨i, hi2⟩).response.headers).Perm
          (b.exchanges.get ⟨i, hi⟩).response.headers := by
  have hdec : decode (encodeBytes b) = .ok (decodedBundle b) := by
    rw [encodeBytes]
    exact decode_encodeCore b hwf hsort _
  refine ⟨decodedBundle b, hdec, ?_, rfl, by simp [decodedBundle], ?_⟩
  · show classifyVersion b.version.bytes = b.version
    exact hwf.1
  · intro i hi hi2
    have hi3 : i < (b.exchanges.map fun e =>
        (⟨e.url, decodedResponse e.response⟩ : Exchange)).length := by
      simpa using hi
    have hget : (decodedBundle b).exchanges.get ⟨i, hi2⟩ =
        ⟨(b.exchanges.get ⟨i, hi⟩).url, decodedResponse (b.exchanges.get ⟨i, hi⟩).response⟩ := by
      have h1 : (decodedBundle b).exchanges.get ⟨i, hi2⟩ =
          (b.exchanges.map fun e => (⟨e.url, decodedResponse e.response⟩ : Exchange)).get
            ⟨i, hi3⟩ := rfl
      rw [h1, List.get_eq_getElem, List.getElem_map, List.get_eq_getElem]
    rw [hget]
    refine ⟨rfl, rfl, rfl, ?_⟩
    show (decodedHeaders (b.exchanges.get ⟨i, hi⟩).response).Perm _
    exact decodedHeaders_perm _
      (hwf.2.2.2.2.2 _ (List.get_mem b.exchanges _ _)).2.2

/-- C2: the spec claims exchange insertion order is preserved through
encode → decode. Corrected: the encoder writes the index as a `BTreeMap`
sorted by serialized URL key and the decoder returns exchanges in that
index order, so insertion order is preserved exactly when the insertion
order is the canonical order. Amended statement, proved here: for a
wellformed bundle whose URLs are inserted in canonical order, the decoded
URL sequence equals the inserted URL sequence. -/
theorem c2_decoded_url_order (b : Bundle) (hwf : WfBundle b) (hsort : urlsSorted b.exchanges) :
    ∃ d, decode (encodeBytes b) = .ok d ∧
      d.exchanges.map (fun e => e.url) = b.exchanges.map fun e => e.url := by
  refine ⟨decodedBundle b, ?_, ?_⟩
  · rw [encodeBytes]
    exact decode_encodeCore b hwf hsort _
  · show ((b.exchanges.map fun e => (⟨e.url, decodedResponse e.response⟩ : Exchange)).map
      fun e => e.url) = _
    rw [List.map_map]
    rfl

/-- C5: the spec says duplicate URLs are rejected by canonical encoding.
Corrected: `encode_index_section` inserts into a `BTreeMap`, so a duplicate
key silently replaces the earlier entry, while the map header is written
with `response_locations.len()`; encoding succeeds and emits a map that
declares two entries but contains one. Amended statement, proved here: for
any two locations with the same URL, the emitted index section is a map
header declaring 2 entries followed by the single pair holding the second
location. -/
theorem c5_duplicate_index_keys_encoded (u : Bytes) (o1 l1 o2 l2 : Nat) :
    encode_index_section [⟨u, o1, l1⟩, ⟨u, o2, l2⟩] =
      cborHeader 5 2 ++ (indexKey u ++ indexValue o2 l2) ∧
    (indexMap [⟨u, o1, l1⟩, ⟨u, o2, l2⟩]).length = 1 := by
  have hmap : indexMap [⟨u, o1, l1⟩, ⟨u, o2, l2⟩] = [(indexKey u, indexValue o2 l2)] := by
    simp [indexMap, btreeInsert, lexLt_irrefl]
  constructor
  · rw [encode_index_section, hmap]
    simp
  · rw [hmap]
    rfl

/-- C6 (confirmed): the encoder emits the index map and every
response-headers map from a `BTreeMap` keyed by the serialized key bytes,
so the emitted pairs have strictly ascending serialized keys in
lexicographic byte order, and the emitted bytes are exactly the map header
followed by the sorted pairs. -/
theorem c6_canonical_key_order :
    (∀ locs : List ResponseLocation,
      keysSorted (indexMap locs) ∧
      encode_index_section locs =
        cborHeader 5 locs.length ++ ((indexMap locs).map fun p => p.1 ++ p.2).flatten) ∧
    ∀ r : Response,
      keysSorted (encodeHeadersMap r) ∧
      encode_headers r =
        cborHeader 5 (encodeHeadersMap r).length ++
          ((encodeHeadersMap r).map fun p => p.1 ++ p.2).flatten := by
  constructor
  · intro locs
    refine ⟨?_, rfl⟩
    have h := btreeFold_sortedInv (fun loc : ResponseLocation => indexKey loc.url)
      (fun loc => indexValue loc.offset loc.length) locs [] (by simp [keysSorted])
    simpa [indexMap] using h
  · intro r
    refine ⟨?_, rfl⟩
    have h := btreeFold_sortedInv (fun p : Bytes × Bytes => p.1) (fun p => p.2)
      (((strBytes ":status", statusBytes r.status) :: r.headers).map wrapPair) []
      (by simp [keysSorted])
    simpa [encodeHeadersMap] using h

/-- C7 (confirmed): for every successfully encoded bundle, the output is
the core followed by exactly 8 bytes; those final 8 bytes are the
big-endian 64-bit value of the total output length, trailer included
(count before the trailer plus exactly 8). -/
theorem c7_trailing_length_field (b : Bundle) (out : Bytes) (h : encode b = .ok out)
    (hlen : out.length < 2 ^ 64) :
    out.length = (encodeCore b).length + 8 ∧
    out.drop ((encodeCore b).length) = beBytes 8 out.length ∧
    beVal (out.drop (out.length - 8)) = out.length := by
  rw [encode] at h
  by_cases hok : encodeOk b = true
  · rw [if_pos hok, Except.ok.injEq] at h
    subst h
    have hlen8 : (beBytes 8 ((encodeCore b).length + 8)).length = 8 := beBytes_length 8 _
    have hleq : (encodeBytes b).length = (encodeCore b).length + 8 := by
      rw [encodeBytes, List.length_append, hlen8]
    refine ⟨hleq, ?_, ?_⟩
    · conv_lhs => rw [encodeBytes]
      rw [List.drop_left, ← hleq]
    · rw [hleq, Nat.add_sub_cancel]
      conv_lhs => rw [encodeBytes]
      rw [List.drop_left]
      exact beVal_beBytes 8 _
        (by rw [show (256 : Nat) ^ 8 = 2 ^ 64 from by norm_num, ← hleq]; exact hlen)
  · rw [if_neg hok] at h
    simp at h

/-- C10: the claim says parse never reads the trailing-length field, so any
two inputs differing only in (or lacking) the trailer parse identically.
Corrected: the decoder never decodes the trailer, but the bytes after the
sections array still matter when a recorded response range overhangs the
sections — the unchecked slice then reads into (or past) the trailer.
Amended statement, proved here: for every wellformed, canonically ordered
bundle, the decode result of its core encoding is the same under any
trailer bytes, including none at all. -/
theorem c10_trailer_not_read (b : Bundle) (hwf : WfBundle b) (hsort : urlsSorted b.exchanges)
    (t1 t2 : Bytes) :
    decode (encodeCore b ++ t1) = decode (encodeCore b ++ t2) ∧
    decode (encodeCore b) = decode (encodeBytes b) := by
  constructor
  · rw [decode_encodeCore b hwf hsort t1, decode_encodeCore b hwf hsort t2]
  · have h0 := decode_encodeCore b hwf hsort []
    rw [List.append_nil] at h0
    rw [h0, encodeBytes, decode_encodeCore b hwf hsort _]

/-- C8 (confirmed): in every successfully decoded response-headers map,
every header name passes `HeaderName::from_lowercase` (lowercase ASCII) and
no name begins with a colon; and the error cases hold: an unknown
pseudo-header, a second `:status`, an uppercase regular name, a non-ASCII
regular name, and an absent `:status` each fail with the matching error. -/
theorem c8_header_validation :
    (∀ (s : DState) (st : Nat) (hs : List (Bytes × Bytes)),
      read_headers_cbor s = .ok (st, hs) →
      ∀ p ∈ hs, validLowerHeaderName p.1 = true ∧ ¬p.1.head? = some 58) ∧
    read_headers_cbor ⟨c8PseudoInput, 0⟩ = .error DErr.unknownPseudo ∧
    read_headers_cbor ⟨c8DupInput, 0⟩ = .error DErr.dupStatus ∧
    read_headers_cbor ⟨c8UpperInput, 0⟩ = .error DErr.badHeaderName ∧
    read_headers_cbor ⟨c8NonAsciiInput, 0⟩ = .error DErr.badHeaderName ∧
    read_headers_cbor ⟨c8NoStatusInput, 0⟩ = .error DErr.noStatus := by
  refine ⟨?_, by decide, by decide, by decide, by decide, by decide⟩
  intro s st hs h
  rw [read_headers_cbor] at h
  cases hml : dMapLen s with
  | error e =>
    rw [hml, error_bind] at h
    simp at h
  | ok p =>
    obtain ⟨n, s1⟩ := p
    rw [hml, ok_bind] at h
    simp only [] at h
    cases hlp : readHeadersLoop n s1 none [] with
    | error e =>
      rw [hlp, error_bind] at h
      simp at h
    | ok q =>
      rw [hlp, ok_bind] at h
      cases hq1 : q.1 with
      | none =>
        rw [hq1] at h
        simp at h
      | some st2 =>
        rw [hq1] at h
        simp only [pure_eq_ok, Except.ok.injEq, Prod.mk.injEq] at h
        have hq2 : q.2 = hs := h.2
        refine fun p hp => readHeadersLoop_names n s1 none [] q.1 q.2 ?_ ?_ p (hq2 ▸ hp)
        · rw [hlp]
        · intro p hp
          simp at hp

set_option maxRecDepth 100000 in
/-- Counterexample to C1 as written: a builder-producible bundle with URLs
out of canonical order encodes successfully but decodes to a structurally
different bundle (exchanges reordered). -/
theorem c1_counterexample :
    encode c1CexBundle = .ok (encodeBytes c1CexBundle) ∧
    decode (encodeBytes c1CexBundle) = .ok c1CexDecoded ∧
    c1CexDecoded ≠ c1CexBundle := by decide

set_option maxRecDepth 100000 in
/-- Witness for C1 at a concrete bundle. -/
theorem c1_witness :
    ∃ d, decode (encodeBytes c1WitBundle) = .ok d ∧
      d.version = c1WitBundle.version ∧
      d.primaryUrl = c1WitBundle.primaryUrl ∧
      d.exchanges.length = c1WitBundle.exchanges.length ∧
      ∀ (i : Nat) (hi : i < c1WitBundle.exchanges.length)
        (hi2 : i < d.exchanges.length),
        (d.exchanges.get ⟨i, hi2⟩).url = (c1WitBundle.exchanges.get ⟨i, hi⟩).url ∧
        (d.exchanges.get ⟨i, hi2⟩).response.status =
          (c1WitBundle.exchanges.get ⟨i, hi⟩).response.status ∧
        (d.exchanges.get ⟨i, hi2⟩).response.body =
          (c1WitBundle.exchanges.get ⟨i, hi⟩).response.body ∧
        ((d.exchanges.get ⟨i, hi2⟩).response.headers).Perm
          (c1WitBundle.exchanges.get ⟨i, hi⟩).response.headers :=
  c1_round_trip_up_to_canonical_order c1WitBundle (by decide) (by decide)

set_option maxRecDepth 100000 in
/-- Counterexample to C2 as written: insertion order `"b"`, `"a"` decodes
as `"a"`, `"b"`. -/
theorem c2_counterexample :
    encode c2CexBundle = .ok (encodeBytes c2CexBundle) ∧
    decode (encodeBytes c2CexBundle) = .ok c2CexDecoded ∧
    c2CexDecoded.exchanges.map (fun e => e.url) ≠
      c2CexBundle.exchanges.map (fun e => e.url) := by decide

set_option maxRecDepth 100000 in
/-- Witness for C2 at a concrete bundle. -/
theorem c2_witness :
    ∃ d, decode (encodeBytes c2WitBundle) = .ok d ∧
      d.exchanges.map (fun e => e.url) = c2WitBundle.exchanges.map fun e => e.url :=
  c2_decoded_url_order c2WitBundle (by decide) (by decide)

set_option maxRecDepth 100000 in
/-- C3: the spec says `parse(p)` of any strict prefix of a valid encoded
bundle returns a structured error (`BadIndex` for an out-of-range response
range) and never panics. Code bug: `Decoder::new_decoder_from_range` slices
without a range check (the source marks it `TODO: Check range, instead of
panic`), so a truncated valid bundle whose recorded response range now
overhangs the buffer panics instead. `c3Input` is the valid encoding of
`c3Base` with its last 10 bytes removed: the full input decodes, the
prefix is the Rust panic, modelled as `DErr.panicked`. -/
theorem c3_truncated_input_panics :
    c3Input = (encodeBytes c3Base).take ((encodeBytes c3Base).length - 10) ∧
    c3Input.length + 10 = (encodeBytes c3Base).length ∧
    decode (encodeBytes c3Base) = .ok (decodedBundle c3Base) ∧
    decode c3Input = .error DErr.panicked := by decide

set_option maxRecDepth 100000 in
/-- Counterexample to C4 as written: a bundle whose critical section lists
the unimplemented section `signatures` decodes successfully instead of
failing with a `CriticalUnknown` error. -/
theorem c4_counterexample :
    c4Critical = cborHeader 4 1 ++ writeTextItem (strBytes "signatures") ∧
    decode (c4input c4Critical) = .ok ⟨.versionB2, none, []⟩ := by decide

/-- Witness for C4: even a critical payload of twelve `7` bytes, which is
not wellformed CBOR, is skipped. -/
theorem c4_witness :
    decode (c4input (List.replicate 12 7)) = .ok ⟨.versionB2, none, []⟩ :=
  c4_critical_section_skipped (List.replicate 12 7) (by decide)

set_option maxRecDepth 100000 in
/-- Counterexample to C5 as written: the duplicate-URL bundle encodes
successfully (no error), with an index map declaring 2 entries and
containing 1. -/
theorem c5_counterexample :
    encode c5Bundle = .ok (encodeBytes c5Bundle) ∧
    c5Locs.length = 2 ∧
    (indexMap c5Locs).length = 1 ∧
    encode_index_section c5Locs =
      cborHeader 5 2 ++ ((indexMap c5Locs).map fun p => p.1 ++ p.2).flatten := by decide

set_option maxRecDepth 100000 in
/-- Witness for C7 at a concrete bundle. -/
theorem c7_witness :
    (encodeBytes c7WitBundle).length = (encodeCore c7WitBundle).length + 8 ∧
    (encodeBytes c7WitBundle).drop ((encodeCore c7WitBundle).length) =
      beBytes 8 (encodeBytes c7WitBundle).length ∧
    beVal ((encodeBytes c7WitBundle).drop ((encodeBytes c7WitBundle).length - 8)) =
      (encodeBytes c7WitBundle).length :=
  c7_trailing_length_field c7WitBundle (encodeBytes c7WitBundle) (by decide) (by decide)

/-- Witness for C8: the regular header decoded from a concrete valid map
is lowercase and not a pseudo-header. -/
theorem c8_witness :
    validLowerHeaderName (strBytes "abc") = true ∧
    ¬(strBytes "abc").head? = some 58 :=
  (c8_header_validation.1 ⟨c8OkInput, 0⟩ 200 [(strBytes "abc", strBytes "x")] (by decide))
    (strBytes "abc", strBytes "x") (by decide)

set_option maxRecDepth 100000 in
/-- Witness for C9: a blob of exactly 8192 zero bytes is rejected as
too large. -/
theorem c9_witness :
    read_section_offsets ⟨writeBytesItem (List.replicate 8192 0), 0⟩ =
      .error DErr.sectionTableTooLarge :=
  (c9_section_table_limit.1 (writeBytesItem (List.replicate 8192 0)) 0
    (List.replicate 8192 0) [] (Nat.zero_le _)
    (by rw [List.drop_zero, List.append_nil])
    (by rw [List.length_replicate]; norm_num)).mpr
    (by rw [List.length_replicate])

set_option maxRecDepth 100000 in
/-- Counterexample to C10 as written: two inputs that agree on every byte
up to the end of the sections array and differ only in the presence of the
8-byte trailer parse differently — without the trailer the overhanging
response range panics, with it the input decodes successfully. -/
theorem c10_counterexample :
    decode c10Core = .error DErr.panicked ∧
    decode (c10Core ++ beBytes 8 (c10Core.length + 8)) =
      .ok ⟨.versionB2, none, [⟨strBytes "a", ⟨200, [], []⟩⟩]⟩ := by decide

set_option maxRecDepth 100000 in
/-- Witness for C10 at a concrete bundle and two concrete trailers. -/
theorem c10_witness :
    decode (encodeCore c10WitBundle ++ [255, 0, 7]) =
      decode (encodeCore c10WitBundle ++ []) ∧
    decode (encodeCore c10WitBundle) = decode (encodeBytes c10WitBundle) :=
  c10_trailer_not_read c10WitBundle (by decide) (by decide) [255, 0, 7] []
